import Mathlib

/-!
Verification of the rendering core of the `qd` engine against its
natural-language specification.

The development shallowly embeds the relevant Rust code:

* `src/mem/mod.rs` — the buddy-style `MetaAllocator`, the `BitMap` slot
  allocator, and the `Handles` free-list handle table;
* `src/scene.rs` — the scene graph (`Scene::update`, `Scene::add_node`);
* `src/math/{vec,quat,xform,mat}.rs` — vector / quaternion / transform
  algebra, modelled over `ℚ` (the spec claims under scrutiny only evaluate
  these at points where `f32` arithmetic is exact, see the comments at the
  definitions);
* `src/gfx/gl/mod.rs` — the batching pass (`Pass::find_mesh_batch`,
  `Pass::draw`, `Drop for Pass`), the buffer sub-allocators (`RawBuf`)
  and the mapped-write path (`RawMap::write`).

Rust `usize` values are modelled as `Nat` (none of the verified paths
overflow), `Vec`/`VecDeque` as `List` (with `push`/`pop` at the faithful
end), panics and fatal aborts as `none` results.
-/

namespace QD

/-! ## Bit-level helpers (Rust `usize`/`u64` intrinsics) -/

/-- Doubling loop behind `nextPow2`.  The fuel argument makes the
recursion structural (so that concrete instances evaluate in the
kernel); `nextPow2` supplies provably sufficient fuel. -/
def nextPow2Go (n : Nat) : Nat → Nat → Nat
  | 0, p => p
  | fuel + 1, p => if n ≤ p then p else nextPow2Go n fuel (2 * p)

/-- Rust `usize::next_power_of_two`: the smallest power of two `≥ n`
(returns 1 for 0). -/
def nextPow2 (n : Nat) : Nat := nextPow2Go n n 1

/-- Halving loop behind `trailingZeros`, fuel-structural for kernel
evaluation. -/
def trailingZerosGo : Nat → Nat → Nat
  | 0, _ => 0
  | fuel + 1, n =>
      if n = 0 then 64
      else if n % 2 = 0 then trailingZerosGo fuel (n / 2) + 1
      else 0

/-- Rust `usize::trailing_zeros` (the 64 result for input 0 never arises
in the verified paths: the source only applies it to
`next_power_of_two` results, which are positive). -/
def trailingZeros (n : Nat) : Nat := trailingZerosGo n n

/-- Halving loop behind `trailingOnes`, fuel-structural. -/
def trailingOnesGo : Nat → Nat → Nat
  | 0, _ => 0
  | fuel + 1, w => if w % 2 = 1 then trailingOnesGo fuel (w / 2) + 1 else 0

/-- Rust `u64::trailing_ones`. -/
def trailingOnes (w : Nat) : Nat := trailingOnesGo w w

theorem trailingZerosGo_two_pow (k : Nat) :
    ∀ fuel, k < fuel → trailingZerosGo fuel (2 ^ k) = k := by
  induction k with
  | zero =>
      intro fuel hf
      match fuel, hf with
      | fuel + 1, _ => simp [trailingZerosGo]
  | succ k ih =>
      intro fuel hf
      match fuel, hf with
      | fuel + 1, hf =>
          have h1 : 2 ^ (k + 1) ≠ 0 := by positivity
          have h2 : 2 ^ (k + 1) % 2 = 0 := by
            simp [Nat.pow_succ, Nat.mul_mod_left]
          have h3 : 2 ^ (k + 1) / 2 = 2 ^ k := by
            rw [Nat.pow_succ]
            exact Nat.mul_div_cancel _ (by omega)
          simp only [trailingZerosGo, h1, h2, h3, if_false, if_true, ite_true,
            ite_false, if_neg h1]
          rw [ih fuel (by omega)]

theorem trailingZeros_two_pow (k : Nat) : trailingZeros (2 ^ k) = k :=
  trailingZerosGo_two_pow k (2 ^ k) (Nat.lt_two_pow k)

theorem nextPow2Go_spec (n : Nat) :
    ∀ fuel j, n ≤ 2 ^ j * 2 ^ fuel →
      ∃ k, j ≤ k ∧ nextPow2Go n fuel (2 ^ j) = 2 ^ k ∧ n ≤ 2 ^ k := by
  intro fuel
  induction fuel with
  | zero =>
      intro j hj
      exact ⟨j, le_rfl, rfl, by simpa using hj⟩
  | succ fuel ih =>
      intro j hj
      by_cases h : n ≤ 2 ^ j
      · exact ⟨j, le_rfl, by simp [nextPow2Go, h], h⟩
      · have h2 : (2 : Nat) * 2 ^ j = 2 ^ (j + 1) := by ring
        have hj' : n ≤ 2 ^ (j + 1) * 2 ^ fuel := by
          calc n ≤ 2 ^ j * 2 ^ (fuel + 1) := hj
          _ = 2 ^ (j + 1) * 2 ^ fuel := by ring
        obtain ⟨k, hk1, hk2, hk3⟩ := ih (j + 1) hj'
        exact ⟨k, by omega, by simp [nextPow2Go, h, h2, hk2], hk3⟩

theorem nextPow2_exists_pow (n : Nat) : ∃ k, nextPow2 n = 2 ^ k ∧ n ≤ 2 ^ k := by
  have h : n ≤ 2 ^ 0 * 2 ^ n := by
    simpa using (Nat.lt_two_pow n).le
  obtain ⟨k, _, hk2, hk3⟩ := nextPow2Go_spec n n 0 h
  exact ⟨k, by simpa [nextPow2] using hk2, hk3⟩

theorem le_nextPow2 (n : Nat) : n ≤ nextPow2 n := by
  obtain ⟨k, hk, hn⟩ := nextPow2_exists_pow n
  omega

theorem nextPow2_pos (n : Nat) : 0 < nextPow2 n := by
  obtain ⟨k, hk, _⟩ := nextPow2_exists_pow n
  have := Nat.pos_pow_of_pos k (show 0 < 2 by omega)
  omega

theorem two_pow_trailingZeros_nextPow2 (n : Nat) :
    2 ^ trailingZeros (nextPow2 n) = nextPow2 n := by
  obtain ⟨k, hk, _⟩ := nextPow2_exists_pow n
  rw [hk, trailingZeros_two_pow]

/-! ## `Handles<T>` (src/mem/mod.rs lines 3–33)

`items` is the dense table, `free_list` a stack of recycled indices
(Rust `Vec`: push/pop at the end of the list).  `track` writes through
`self.items[idx] = item`, which panics when `idx` is out of bounds; the
panic is modelled as `none`. -/

structure Handles (α : Type) where
  items : List α
  free_list : List Nat

def Handles.new (α : Type) : Handles α := ⟨[], []⟩

def Handles.track (h : Handles α) (item : α) : Option (Nat × Handles α) :=
  match h.free_list.getLast? with
  | some idx =>
      if idx < h.items.length then
        some (idx, ⟨h.items.set idx item, h.free_list.dropLast⟩)
      else
        none
  | none => some (h.items.length, ⟨h.items ++ [item], h.free_list⟩)

def Handles.untrack (h : Handles α) (idx : Nat) : Handles α :=
  ⟨h.items, h.free_list ++ [idx]⟩

/-! ## `MetaAllocator` (src/mem/mod.rs lines 79–158) -/

/-- `MetaAlloc` holds a `Range<usize>`: the half-open range
`[start, stop)`. -/
structure MetaAlloc where
  start : Nat
  stop : Nat
deriving DecidableEq, Repr

/-- `free_lists[k]` holds the offsets of the free blocks of size `2^k`. -/
structure MetaAllocator where
  min_order : Nat
  max_order : Nat
  free_lists : List (List Nat)
deriving DecidableEq, Repr

/-- Read of `free_lists[i]` (in the verified paths `i` is always in
bounds). -/
def getL (ls : List (List Nat)) (i : Nat) : List Nat := ls.getD i []

/-- `free_lists[i].push_back(v)`. -/
def pushBack (ls : List (List Nat)) (i v : Nat) : List (List Nat) :=
  ls.set i (getL ls i ++ [v])

def MetaAllocator.new (size min_size : Nat) : MetaAllocator :=
  let size' := nextPow2 size
  let min_size' := nextPow2 min_size
  let max_order := trailingZeros size'
  let min_order := trailingZeros min_size'
  { min_order := min_order
    max_order := max_order
    free_lists := (List.replicate (max_order + 1) ([] : List Nat)).set max_order [0] }

/-- The inner split of `alloc`: `for split_order in (order..cur_order).rev()`
pushes the upper half (`offset + (1 << split_order)`) onto the smaller
free list.  `ss` is the (descending) list of split orders. -/
def allocSplit (off : Nat) (ls : List (List Nat)) : List Nat → List (List Nat)
  | [] => ls
  | s :: rest => allocSplit off (pushBack ls s (off + 2 ^ s)) rest

/-- The body of `alloc`'s `for cur_order in order..=self.max_order` loop.
Note the source has no `break`: every nonempty free list in the range is
popped, and `found_offset` keeps the offset of the *last* pop. -/
def allocLoop (order : Nat) (ls : List (List Nat)) (found : Option Nat) :
    List Nat → List (List Nat) × Option Nat
  | [] => (ls, found)
  | cur :: rest =>
      match getL ls cur with
      | [] => allocLoop order ls found rest
      | off :: tl =>
          allocLoop order
            (allocSplit off (ls.set cur tl) (List.range' order (cur - order)).reverse)
            (some off) rest

def MetaAllocator.alloc (a : MetaAllocator) (size : Nat) :
    Option MetaAlloc × MetaAllocator :=
  let order := trailingZeros (nextPow2 (max size a.min_order))
  if a.max_order < order then (none, a)
  else
    match allocLoop order a.free_lists none
        (List.range' order (a.max_order + 1 - order)) with
    | (ls, some off) => (some ⟨off, off + 2 ^ order⟩, { a with free_lists := ls })
    | (ls, none) => (none, { a with free_lists := ls })

/-- The `while cur_order < self.max_order` coalescing loop of `free`.
`fuel` is `max_order - cur_order`, which is exactly the number of
iterations after which the guard must fail, so the fuel never runs out
before the guard does. -/
def freeLoop (maxo : Nat) : Nat → List (List Nat) → Nat → Nat →
    List (List Nat) × Nat × Nat
  | 0, ls, off, ord => (ls, off, ord)
  | fuel + 1, ls, off, ord =>
      if ord < maxo then
        let buddy := off ^^^ 2 ^ ord
        if (getL ls ord).contains buddy then
          freeLoop maxo fuel (ls.set ord ((getL ls ord).erase buddy))
            (min off buddy) (ord + 1)
        else (ls, off, ord)
      else (ls, off, ord)

def MetaAllocator.free (a : MetaAllocator) (al : MetaAlloc) : MetaAllocator :=
  let order := trailingZeros (nextPow2 (max (al.stop - al.start) a.min_order))
  let r := freeLoop a.max_order (a.max_order - order) a.free_lists al.start order
  { a with free_lists := pushBack r.1 r.2.2 r.2.1 }

/-! ## `BitMap` (src/mem/mod.rs lines 160–203)

`words` is the `Vec<u64>` bit vector (each entry `< 2^64` in every
reachable state), `free_list` the stack of freed indices. -/

def u64Max : Nat := 2 ^ 64 - 1

structure BitMap where
  words : List Nat
  free_list : List Nat

def BitMap.new (size : Nat) : BitMap :=
  ⟨List.replicate ((size + (64 - 1)) / 64) 0, []⟩

/-- The linear scan of `set_any`: find the first word with a clear bit,
set its lowest clear bit, and return the absolute bit index.  (Word
indices contribute `64` per skipped word.) -/
def scanWords : List Nat → Option (Nat × List Nat)
  | [] => none
  | w :: ws =>
      if w = u64Max then
        (scanWords ws).map (fun p => (p.1 + 64, w :: p.2))
      else
        let bit := trailingOnes w
        some (bit, (w ||| 2 ^ bit) :: ws)

/-- `BitMap::set_any`.  The free-list fast path writes
`words[idx / 64]`; an out-of-range recycled index would panic in Rust,
a state no verified claim reaches (the claims below never call `unset`). -/
def BitMap.set_any (b : BitMap) : Option Nat × BitMap :=
  match b.free_list.getLast? with
  | some idx =>
      (some idx,
        ⟨b.words.set (idx / 64) (b.words.getD (idx / 64) 0 ||| 2 ^ (idx % 64)),
          b.free_list.dropLast⟩)
  | none =>
      match scanWords b.words with
      | some (idx, ws) => (some idx, ⟨ws, b.free_list⟩)
      | none => (none, b)

def BitMap.unset (b : BitMap) (idx : Nat) : BitMap :=
  ⟨b.words.set (idx / 64) (b.words.getD (idx / 64) 0 &&& (u64Max ^^^ 2 ^ (idx % 64))),
    b.free_list ++ [idx]⟩

/-! ## Per-address occupancy counting

To reason about overlap we count, for a fixed address `x`, how many
tracked intervals contain `x`.  A free-list entry `o` at order `k`
stands for the block `[o, o + 2^k)`; a `MetaAlloc` stands for its
range.  Pairwise disjointness of a family of intervals is equivalent to
"no address is covered twice", which these counts express without any
combinatorial bookkeeping. -/

/-- 1 iff `x` lies in the free block `[o, o + 2^k)`. -/
def hitB (o k x : Nat) : Nat := if o ≤ x ∧ x < o + 2 ^ k then 1 else 0

/-- 1 iff `x` lies in the allocation's range. -/
def hitA (al : MetaAlloc) (x : Nat) : Nat :=
  if al.start ≤ x ∧ x < al.stop then 1 else 0

/-- Number of blocks of the order-`k` free list that contain `x`. -/
def countIn (l : List Nat) (k x : Nat) : Nat :=
  (l.map (fun o => hitB o k x)).sum

/-- Number of free blocks (over all orders) that contain `x`. -/
def countFreeAt (ls : List (List Nat)) (x : Nat) : Nat :=
  ∑ k ∈ Finset.range ls.length, countIn (getL ls k) k x

/-- Number of live allocations whose range contains `x`. -/
def countLive (live : List MetaAlloc) (x : Nat) : Nat :=
  (live.map (fun al => hitA al x)).sum

theorem hitB_le_one (o k x : Nat) : hitB o k x ≤ 1 := by
  unfold hitB; split <;> omega

theorem getL_length_of_ne_nil {ls : List (List Nat)} {i : Nat}
    (h : getL ls i ≠ []) : i < ls.length := by
  by_contra hcon
  exact h (by simp [getL, List.getD_eq_getElem?_getD,
    List.getElem?_eq_none (by omega : ls.length ≤ i)])

theorem getL_set (ls : List (List Nat)) (i : Nat) (l : List Nat) (j : Nat) :
    getL (ls.set i l) j = if i = j ∧ i < ls.length then l else getL ls j := by
  unfold getL
  by_cases hij : i = j
  · subst hij
    by_cases hi : i < ls.length
    · simp [List.getD_eq_getElem?_getD, List.getElem?_set_self', hi,
        List.getElem?_eq_getElem hi]
    · simp [List.set_eq_of_length_le (by omega : ls.length ≤ i), hi]
  · simp [List.getD_eq_getElem?_getD, List.getElem?_set_ne hij, hij]

theorem countIn_append (l₁ l₂ : List Nat) (k x : Nat) :
    countIn (l₁ ++ l₂) k x = countIn l₁ k x + countIn l₂ k x := by
  simp [countIn]

theorem countIn_cons (o : Nat) (l : List Nat) (k x : Nat) :
    countIn (o :: l) k x = hitB o k x + countIn l k x := by
  simp [countIn]

theorem countIn_erase {l : List Nat} {b : Nat} (h : b ∈ l) (k x : Nat) :
    countIn (l.erase b) k x + hitB b k x = countIn l k x := by
  induction l with
  | nil => cases h
  | cons a l ih =>
      by_cases hab : a = b
      · subst hab
        rw [List.erase_cons_head, countIn_cons]
        omega
      · have hb : b ∈ l := by
          cases h with
          | head => exact absurd rfl hab
          | tail _ h => exact h
        rw [List.erase_cons_tail (by simpa using hab), countIn_cons,
          countIn_cons]
        have := ih hb
        omega

theorem countFreeAt_set (ls : List (List Nat)) (i : Nat) (l : List Nat) (x : Nat)
    (h : i < ls.length) :
    countFreeAt (ls.set i l) x + countIn (getL ls i) i x
      = countFreeAt ls x + countIn l i x := by
  unfold countFreeAt
  rw [List.length_set]
  have hmem : i ∈ Finset.range ls.length := Finset.mem_range.mpr h
  rw [← Finset.sum_erase_add _ _ hmem, ← Finset.sum_erase_add _ _ hmem]
  have hcongr :
      ∑ k ∈ (Finset.range ls.length).erase i, countIn (getL (ls.set i l) k) k x
        = ∑ k ∈ (Finset.range ls.length).erase i, countIn (getL ls k) k x := by
    refine Finset.sum_congr rfl ?_
    intro k hk
    have hki : i ≠ k := fun hik => (Finset.mem_erase.mp hk).1 (by omega)
    rw [getL_set]
    simp [hki]
  rw [hcongr, getL_set]
  simp [h]
  omega

theorem countFreeAt_pushBack_le (ls : List (List Nat)) (i v x : Nat) :
    countFreeAt (pushBack ls i v) x ≤ countFreeAt ls x + hitB v i x := by
  unfold pushBack
  by_cases h : i < ls.length
  · have := countFreeAt_set ls i (getL ls i ++ [v]) x h
    rw [countIn_append] at this
    have hv : countIn [v] i x = hitB v i x := by simp [countIn]
    omega
  · rw [List.set_eq_of_length_le (by omega : ls.length ≤ i)]
    omega

/-- The buddy of a block (`address XOR block-size`) is the adjacent
half: either one `2^k` above or one `2^k` below. -/
theorem xor_two_pow_adj : ∀ (k off : Nat),
    off ^^^ 2 ^ k = off + 2 ^ k ∨ off = (off ^^^ 2 ^ k) + 2 ^ k := by
  intro k
  induction k with
  | zero =>
      intro off
      have hd : Nat.bit (Nat.bodd off) (Nat.div2 off) = off := Nat.bit_decomp off
      have h1 : (2 : Nat) ^ 0 = Nat.bit true 0 := by simp [Nat.bit_val]
      rw [← hd, h1, Nat.xor_bit]
      cases hb : Nat.bodd off
      · left; simp [Nat.bit_val]
      · right; simp [Nat.bit_val]
  | succ k ih =>
      intro off
      have hd : Nat.bit (Nat.bodd off) (Nat.div2 off) = off := Nat.bit_decomp off
      have h1 : (2 : Nat) ^ (k + 1) = Nat.bit false (2 ^ k) := by
        simp [Nat.bit_val]; ring
      rw [← hd, h1, Nat.xor_bit]
      rcases ih (Nat.div2 off) with h | h
      · left
        simp only [Nat.bit_val, Bool.bne_false, h]
        cases Nat.bodd off <;> simp <;> ring
      · right
        simp only [Nat.bit_val, Bool.bne_false]
        conv_lhs => rw [h]
        cases Nat.bodd off <;> simp <;> ring

/-- The split halves pushed while breaking a block down from order
`order + m` to `order` exactly cover the part of the block above its
low `2^order` piece. -/
theorem sum_hit_splits (off order x : Nat) : ∀ m,
    ((List.range' order m).map (fun s => hitB (off + 2 ^ s) s x)).sum
      = if off + 2 ^ order ≤ x ∧ x < off + 2 ^ (order + m) then 1 else 0 := by
  intro m
  induction m generalizing order with
  | zero =>
      simp only [List.range', List.map_nil, List.sum_nil, Nat.add_zero]
      split
      · omega
      · rfl
  | succ m ih =>
      have hr : List.range' order (m + 1) = order :: List.range' (order + 1) m :=
        rfl
      rw [hr]
      simp only [List.map_cons, List.sum_cons, ih (order + 1)]
      have hpow : 2 ^ (order + 1) = 2 ^ order + 2 ^ order := by
        rw [Nat.pow_succ]; ring
      have hpow2 : 2 ^ (order + 1 + m) = 2 ^ (order + (m + 1)) := by
        congr 1; omega
      rw [hpow2]
      unfold hitB
      have hle : 2 ^ order + 2 ^ order ≤ 2 ^ (order + (m + 1)) := by
        rw [← hpow]
        exact Nat.pow_le_pow_right (by omega) (by omega)
      have hpos : 0 < 2 ^ order := Nat.pos_pow_of_pos _ (by omega)
      split <;> split <;> split <;> omega

def foundHit (order : Nat) (found : Option Nat) (x : Nat) : Nat :=
  match found with
  | some off => hitB off order x
  | none => 0

theorem countFreeAt_allocSplit_le (off x : Nat) : ∀ (ss : List Nat) (ls : List (List Nat)),
    countFreeAt (allocSplit off ls ss) x
      ≤ countFreeAt ls x + (ss.map (fun s => hitB (off + 2 ^ s) s x)).sum := by
  intro ss
  induction ss with
  | nil => intro ls; simp [allocSplit]
  | cons s rest ih =>
      intro ls
      rw [allocSplit]
      calc countFreeAt (allocSplit off (pushBack ls s (off + 2 ^ s)) rest) x
          ≤ countFreeAt (pushBack ls s (off + 2 ^ s)) x
            + (rest.map (fun s => hitB (off + 2 ^ s) s x)).sum := ih _
        _ ≤ countFreeAt ls x + hitB (off + 2 ^ s) s x
            + (rest.map (fun s => hitB (off + 2 ^ s) s x)).sum := by
              have := countFreeAt_pushBack_le ls s (off + 2 ^ s) x
              omega
        _ = countFreeAt ls x + ((s :: rest).map (fun s => hitB (off + 2 ^ s) s x)).sum := by
              simp; omega

/-- Per-address accounting for `alloc`'s scan loop: the free blocks
still listed plus the block the scan would hand out never cover an
address more often than the original free lists did.  (The inequality
is strict exactly when an intermediate pop leaks its low half.) -/
theorem allocLoop_count_le (order x : Nat) : ∀ (cs : List Nat) (ls : List (List Nat))
    (found : Option Nat), (∀ c ∈ cs, order ≤ c) →
    countFreeAt (allocLoop order ls found cs).1 x
      + foundHit order (allocLoop order ls found cs).2 x
    ≤ countFreeAt ls x + foundHit order found x := by
  intro cs
  induction cs with
  | nil => intro ls found _; simp [allocLoop]
  | cons c rest ih =>
      intro ls found hcs
      have hc : order ≤ c := hcs c (by simp)
      cases hget : getL ls c with
      | nil =>
          rw [allocLoop, hget]
          exact ih ls found (fun d hd => hcs d (by simp [hd]))
      | cons off tl =>
          rw [allocLoop, hget]
          have hlen : c < ls.length :=
            getL_length_of_ne_nil (by rw [hget]; simp)
          have hset := countFreeAt_set ls c tl x hlen
          rw [hget, countIn_cons] at hset
          have hsplit := countFreeAt_allocSplit_le off x
            (List.range' order (c - order)).reverse (ls.set c tl)
          have hsum :
              ((List.range' order (c - order)).reverse.map
                  (fun s => hitB (off + 2 ^ s) s x)).sum
                = if off + 2 ^ order ≤ x ∧ x < off + 2 ^ c then 1 else 0 := by
            rw [List.map_reverse, List.sum_reverse, sum_hit_splits]
            have : order + (c - order) = c := by omega
            rw [this]
          have hrec := ih (allocSplit off (ls.set c tl)
              (List.range' order (c - order)).reverse) (some off)
            (fun d hd => hcs d (by simp [hd]))
          have hhit : hitB off order x
              + (if off + 2 ^ order ≤ x ∧ x < off + 2 ^ c then 1 else 0)
              = hitB off c x := by
            have hle : 2 ^ order ≤ 2 ^ c := Nat.pow_le_pow_right (by omega) hc
            have hpos : 0 < 2 ^ order := Nat.pos_pow_of_pos _ (by omega)
            unfold hitB
            split <;> split <;> split <;> omega
          have hfound : foundHit order (some off) x = hitB off order x := rfl
          rw [hsum] at hsplit
          have := foundHit order found x
          calc countFreeAt (allocLoop order _ (some off) rest).1 x
                + foundHit order (allocLoop order _ (some off) rest).2 x
              ≤ countFreeAt (allocSplit off (ls.set c tl)
                  (List.range' order (c - order)).reverse) x
                + foundHit order (some off) x := hrec
            _ ≤ countFreeAt ls x + foundHit order found x := by
                rw [hfound]
                omega

/-- Per-address accounting for `MetaAllocator::alloc`: the new free
lists plus the returned range never cover an address more often than
the old free lists did.  In particular a request never returns
addresses that were not free. -/
theorem alloc_count_le (a : MetaAllocator) (size x : Nat) :
    countFreeAt (a.alloc size).2.free_lists x
      + (match (a.alloc size).1 with
          | some al => hitA al x
          | none => 0)
    ≤ countFreeAt a.free_lists x := by
  unfold MetaAllocator.alloc
  set order := trailingZeros (nextPow2 (max size a.min_order)) with horder
  by_cases hmax : a.max_order < order
  · simp [hmax]
  · simp only [hmax, if_false, ite_false]
    have hrange : ∀ c ∈ List.range' order (a.max_order + 1 - order), order ≤ c := by
      intro c hcc
      have := List.mem_range'_1.mp hcc
      omega
    have hloop := allocLoop_count_le order x
      (List.range' order (a.max_order + 1 - order)) a.free_lists none hrange
    rcases hres : allocLoop order a.free_lists none
        (List.range' order (a.max_order + 1 - order)) with ⟨ls, found⟩
    rw [hres] at hloop
    cases found with
    | some off =>
        simp only
        have : hitA ⟨off, off + 2 ^ order⟩ x = hitB off order x := rfl
        simp only [this]
        simpa [foundHit] using hloop
    | none =>
        simpa [foundHit] using hloop

/-- Per-address accounting for `free`'s coalescing loop: the current
block plus the remaining free blocks cover an address at most as often
as the original free blocks plus the originally freed block. -/
theorem freeLoop_count_le (maxo x : Nat) : ∀ (fuel : Nat) (ls : List (List Nat))
    (off ord : Nat),
    countFreeAt (freeLoop maxo fuel ls off ord).1 x
      + hitB (freeLoop maxo fuel ls off ord).2.1 (freeLoop maxo fuel ls off ord).2.2 x
    ≤ countFreeAt ls x + hitB off ord x := by
  intro fuel
  induction fuel with
  | zero => intro ls off ord; simp [freeLoop]
  | succ fuel ih =>
      intro ls off ord
      rw [freeLoop]
      by_cases hlt : ord < maxo
      · simp only [hlt, if_true, ite_true]
        by_cases hcont : (getL ls ord).contains (off ^^^ 2 ^ ord)
        · simp only [hcont, if_true, ite_true]
          have hadjall := xor_two_pow_adj ord off
          generalize hb : off ^^^ 2 ^ ord = b at hcont hadjall ⊢
          have hmem : b ∈ getL ls ord := by simpa using hcont
          have hlen : ord < ls.length :=
            getL_length_of_ne_nil (by intro hnil; rw [hnil] at hmem; cases hmem)
          have hset := countFreeAt_set ls ord ((getL ls ord).erase b) x hlen
          have herase := countIn_erase hmem (k := ord) (x := x)
          have hadj : hitB (min off b) (ord + 1) x ≤ hitB off ord x + hitB b ord x := by
            have hpow : 2 ^ (ord + 1) = 2 ^ ord + 2 ^ ord := by
              rw [Nat.pow_succ]; ring
            have hpos : 0 < 2 ^ ord := Nat.pos_pow_of_pos _ (by omega)
            rcases hadjall with hcase | hcase
            · have hmin : min off b = off := Nat.min_eq_left (by omega)
              rw [hmin, hcase]
              unfold hitB
              split <;> split <;> split <;> omega
            · have hmin : min off b = b := Nat.min_eq_right (by omega)
              rw [hmin]
              unfold hitB
              split <;> split <;> split <;> omega
          have hrec := ih (ls.set ord ((getL ls ord).erase b)) (min off b) (ord + 1)
          omega
        · have hnot : ¬ (off ^^^ 2 ^ ord ∈ getL ls ord) := by simpa using hcont
          simp [hnot]
      · simp [hlt]

/-- Per-address accounting for `MetaAllocator::free`, assuming the
freed range's length round-trips through `free`'s order computation
(true of every range `alloc` hands out). -/
theorem free_count_le_aux (a : MetaAllocator) (al : MetaAlloc) (x order : Nat)
    (ho : order = trailingZeros (nextPow2 (max (al.stop - al.start) a.min_order)))
    (hwf : al.stop = al.start + 2 ^ order) :
    countFreeAt (a.free al).free_lists x ≤ countFreeAt a.free_lists x + hitA al x := by
  simp only [MetaAllocator.free]
  rw [← ho]
  rcases hres : freeLoop a.max_order (a.max_order - order) a.free_lists al.start order
    with ⟨ls, off, ord⟩
  have hloop := freeLoop_count_le a.max_order x (a.max_order - order)
    a.free_lists al.start order
  rw [hres] at hloop
  simp only at hloop
  show countFreeAt (pushBack ls ord off) x ≤ countFreeAt a.free_lists x + hitA al x
  have hpush := countFreeAt_pushBack_le ls ord off x
  have hpos : 0 < 2 ^ order := Nat.pos_pow_of_pos _ (by omega)
  have hhit : hitB al.start order x = hitA al x := by
    unfold hitB hitA
    rw [hwf]
  omega

theorem free_count_le (a : MetaAllocator) (al : MetaAlloc) (x : Nat)
    (hwf : al.stop = al.start
      + 2 ^ trailingZeros (nextPow2 (max (al.stop - al.start) a.min_order))) :
    countFreeAt (a.free al).free_lists x ≤ countFreeAt a.free_lists x + hitA al x :=
  free_count_le_aux a al x _ rfl hwf

theorem nextPow2Go_two_pow (k : Nat) : ∀ fuel j, 2 ^ j ≤ 2 ^ k →
    2 ^ k ≤ 2 ^ j * 2 ^ fuel → nextPow2Go (2 ^ k) fuel (2 ^ j) = 2 ^ k := by
  intro fuel
  induction fuel with
  | zero =>
      intro j hj hb
      simp only [Nat.pow_zero, Nat.mul_one] at hb
      have heq : (2 : Nat) ^ j = 2 ^ k := by omega
      simpa [nextPow2Go] using heq
  | succ fuel ih =>
      intro j hj hb
      by_cases h : 2 ^ k ≤ 2 ^ j
      · have : 2 ^ j = 2 ^ k := by omega
        simp [nextPow2Go, this]
      · have hjk : j < k := by
          have := (Nat.pow_lt_pow_iff_right (by omega : 1 < 2)).mp
            (by omega : 2 ^ j < 2 ^ k)
          omega
        have h2 : (2 : Nat) * 2 ^ j = 2 ^ (j + 1) := by ring
        have hj' : 2 ^ (j + 1) ≤ 2 ^ k := Nat.pow_le_pow_right (by omega) (by omega)
        have hb' : 2 ^ k ≤ 2 ^ (j + 1) * 2 ^ fuel := by
          calc 2 ^ k ≤ 2 ^ j * 2 ^ (fuel + 1) := hb
          _ = 2 ^ (j + 1) * 2 ^ fuel := by ring
        rw [nextPow2Go, if_neg h, h2, ih (j + 1) hj' hb']

theorem nextPow2_two_pow (k : Nat) : nextPow2 (2 ^ k) = 2 ^ k := by
  have h1 : (2 : Nat) ^ 0 ≤ 2 ^ k := Nat.pow_le_pow_right (by omega) (by omega)
  have h2 : (2 : Nat) ^ k ≤ 2 ^ 0 * 2 ^ (2 ^ k) := by
    have hk : k ≤ 2 ^ k := (Nat.lt_two_pow k).le
    simpa using Nat.pow_le_pow_right (show 0 < 2 by omega) hk
  have := nextPow2Go_two_pow k (2 ^ k) 0 h1 h2
  simpa [nextPow2] using this

/-! ## Alloc/free call sequences and the overlap invariant (claim C1) -/

/-- A live allocation is well-formed when its length round-trips through
`free`'s order computation; every range `alloc` returns satisfies this. -/
def LiveWF (mino : Nat) (al : MetaAlloc) : Prop :=
  al.stop = al.start + 2 ^ trailingZeros (nextPow2 (max (al.stop - al.start) mino))

/-- One caller-visible allocator call.  `free i` frees the `i`-th
outstanding allocation (so a free is always of a live range and never a
double free, matching the claim's well-formed call sequences). -/
inductive AllocOp where
  | alloc (size : Nat)
  | free (idx : Nat)
deriving DecidableEq, Repr

def execOp (st : MetaAllocator × List MetaAlloc) (op : AllocOp) :
    MetaAllocator × List MetaAlloc :=
  match op with
  | .alloc size =>
      match st.1.alloc size with
      | (some al, a') => (a', st.2 ++ [al])
      | (none, a') => (a', st.2)
  | .free i =>
      if h : i < st.2.length then (st.1.free (st.2.get ⟨i, h⟩), st.2.eraseIdx i)
      else st

def runOps (st : MetaAllocator × List MetaAlloc) (ops : List AllocOp) :
    MetaAllocator × List MetaAlloc :=
  ops.foldl execOp st

/-- The separation invariant: every address is covered by at most one
tracked interval (free block or live allocation), and live allocations
are well-formed. -/
def SepInv (st : MetaAllocator × List MetaAlloc) : Prop :=
  (∀ x, countFreeAt st.1.free_lists x + countLive st.2 x ≤ 1)
  ∧ ∀ al ∈ st.2, LiveWF st.1.min_order al

theorem alloc_min_order (a : MetaAllocator) (size : Nat) :
    (a.alloc size).2.min_order = a.min_order := by
  unfold MetaAllocator.alloc
  by_cases h : a.max_order < trailingZeros (nextPow2 (max size a.min_order))
  · simp [h]
  · simp only [h, if_false, ite_false]
    rcases allocLoop (trailingZeros (nextPow2 (max size a.min_order))) a.free_lists none
        (List.range' (trailingZeros (nextPow2 (max size a.min_order)))
          (a.max_order + 1 - trailingZeros (nextPow2 (max size a.min_order))))
      with ⟨ls, found⟩
    cases found <;> rfl

theorem free_min_order (a : MetaAllocator) (al : MetaAlloc) :
    (a.free al).min_order = a.min_order := rfl

theorem alloc_shape (a : MetaAllocator) (size : Nat) (al : MetaAlloc)
    (h : (a.alloc size).1 = some al) :
    al.stop = al.start + 2 ^ trailingZeros (nextPow2 (max size a.min_order)) := by
  unfold MetaAllocator.alloc at h
  by_cases hmax : a.max_order < trailingZeros (nextPow2 (max size a.min_order))
  · simp [hmax] at h
  · simp only [hmax, if_false, ite_false] at h
    rcases hres : allocLoop (trailingZeros (nextPow2 (max size a.min_order))) a.free_lists none
        (List.range' (trailingZeros (nextPow2 (max size a.min_order)))
          (a.max_order + 1 - trailingZeros (nextPow2 (max size a.min_order))))
      with ⟨ls, found⟩
    rw [hres] at h
    cases found with
    | some off =>
        simp only at h
        cases h
        rfl
    | none => simp at h

theorem alloc_liveWF (a : MetaAllocator) (size : Nat) (al : MetaAlloc)
    (h : (a.alloc size).1 = some al) : LiveWF a.min_order al := by
  have hshape := alloc_shape a size al h
  set order := trailingZeros (nextPow2 (max size a.min_order)) with horder
  have hpos : 0 < 2 ^ order := Nat.pos_pow_of_pos _ (by omega)
  have hlen : al.stop - al.start = 2 ^ order := by omega
  have hmino : a.min_order ≤ 2 ^ order := by
    have h1 : a.min_order ≤ max size a.min_order := Nat.le_max_right _ _
    have h2 : max size a.min_order ≤ nextPow2 (max size a.min_order) := le_nextPow2 _
    have h3 : 2 ^ order = nextPow2 (max size a.min_order) :=
      two_pow_trailingZeros_nextPow2 _
    omega
  unfold LiveWF
  rw [hlen, Nat.max_eq_left hmino, nextPow2_two_pow, trailingZeros_two_pow]
  omega

theorem countLive_append (l₁ l₂ : List MetaAlloc) (x : Nat) :
    countLive (l₁ ++ l₂) x = countLive l₁ x + countLive l₂ x := by
  simp [countLive]

theorem countLive_cons (a : MetaAlloc) (tl : List MetaAlloc) (x : Nat) :
    countLive (a :: tl) x = hitA a x + countLive tl x := by
  simp [countLive]

theorem countLive_eraseIdx (x : Nat) : ∀ (live : List MetaAlloc) (i : Nat)
    (h : i < live.length),
    countLive live x = countLive (live.eraseIdx i) x + hitA (live.get ⟨i, h⟩) x := by
  intro live
  induction live with
  | nil => intro i h; simp at h
  | cons a tl ih =>
      intro i h
      cases i with
      | zero =>
          simp only [List.eraseIdx, List.get, countLive_cons]
          omega
      | succ i =>
          have hi : i < tl.length := by simpa using h
          have := ih i hi
          simp only [List.eraseIdx, List.get, countLive_cons]
          omega

theorem single_le_countLive (x : Nat) : ∀ (live : List MetaAlloc) (i : Nat)
    (h : i < live.length), hitA (live.get ⟨i, h⟩) x ≤ countLive live x := by
  intro live
  induction live with
  | nil => intro i h; simp at h
  | cons a tl ih =>
      intro i h
      cases i with
      | zero =>
          simp only [List.get, countLive_cons]
          omega
      | succ i =>
          have hi : i < tl.length := by simpa using h
          have := ih i hi
          simp only [List.get, countLive_cons]
          omega

theorem two_le_countLive (x : Nat) : ∀ (live : List MetaAlloc) (i j : Nat)
    (hij : i < j) (hj : j < live.length),
    hitA (live.get ⟨i, by omega⟩) x + hitA (live.get ⟨j, hj⟩) x
      ≤ countLive live x := by
  intro live
  induction live with
  | nil => intro i j hij hj; simp at hj
  | cons a tl ih =>
      intro i j hij hj
      cases j with
      | zero => omega
      | succ j =>
          have hj' : j < tl.length := by simpa using hj
          cases i with
          | zero =>
              have := single_le_countLive x tl j hj'
              simp only [List.get, countLive_cons]
              omega
          | succ i =>
              have := ih i j (by omega) hj'
              simp only [List.get, countLive_cons]
              omega

theorem execOp_sepInv (st : MetaAllocator × List MetaAlloc) (op : AllocOp)
    (h : SepInv st) : SepInv (execOp st op) := by
  obtain ⟨hcount, hwf⟩ := h
  cases op with
  | alloc size =>
      rcases hres : st.1.alloc size with ⟨res, a'⟩
      have hmin : a'.min_order = st.1.min_order := by
        have := alloc_min_order st.1 size
        rw [hres] at this
        exact this
      cases res with
      | some al =>
          constructor
          · intro x
            have hc := alloc_count_le st.1 size x
            rw [hres] at hc
            simp only at hc
            have hl := countLive_append st.2 [al] x
            have hone : countLive [al] x = hitA al x := by simp [countLive]
            simp only [execOp, hres, hl, hone]
            have := hcount x
            omega
          · intro al' hal'
            simp only [execOp, hres] at hal' ⊢
            rw [List.mem_append] at hal'
            rcases hal' with hmem | hmem
            · have := hwf al' hmem
              unfold LiveWF at *
              rw [hmin]
              exact this
            · have : al' = al := by simpa using hmem
              subst this
              have := alloc_liveWF st.1 size al' (by rw [hres])
              unfold LiveWF at *
              rw [hmin]
              exact this
      | none =>
          constructor
          · intro x
            have hc := alloc_count_le st.1 size x
            rw [hres] at hc
            simp only at hc
            simp only [execOp, hres]
            have := hcount x
            omega
          · intro al' hal'
            simp only [execOp, hres] at hal' ⊢
            have := hwf al' hal'
            unfold LiveWF at *
            rw [hmin]
            exact this
  | free i =>
      by_cases hi : i < st.2.length
      · have hwfi := hwf (st.2.get ⟨i, hi⟩) (st.2.get_mem _ _)
        constructor
        · intro x
          have hfc := free_count_le st.1 (st.2.get ⟨i, hi⟩) x hwfi
          have hle := countLive_eraseIdx x st.2 i hi
          simp only [execOp, hi, dif_pos]
          have := hcount x
          omega
        · intro al' hal'
          simp only [execOp, hi, dif_pos] at hal' ⊢
          have hmem : al' ∈ st.2 := by
            have := List.mem_of_mem_eraseIdx hal'
            exact this
          have := hwf al' hmem
          unfold LiveWF at *
          rw [free_min_order]
          exact this
      · simpa [execOp, hi] using ⟨hcount, hwf⟩

theorem runOps_sepInv (ops : List AllocOp) :
    ∀ (st : MetaAllocator × List MetaAlloc), SepInv st → SepInv (runOps st ops) := by
  induction ops with
  | nil => intro st h; exact h
  | cons op rest ih =>
      intro st h
      exact ih (execOp st op) (execOp_sepInv st op h)

theorem new_sepInv (size min_size : Nat) :
    SepInv (MetaAllocator.new size min_size, []) := by
  constructor
  · intro x
    unfold MetaAllocator.new countFreeAt
    simp only [countLive, List.map_nil, List.sum_nil, Nat.add_zero]
    have hlen : ((List.replicate (trailingZeros (nextPow2 size) + 1)
        ([] : List Nat)).set (trailingZeros (nextPow2 size)) [0]).length
        = trailingZeros (nextPow2 size) + 1 := by
      simp
    rw [hlen]
    have hget : ∀ k, getL ((List.replicate (trailingZeros (nextPow2 size) + 1)
        ([] : List Nat)).set (trailingZeros (nextPow2 size)) [0]) k
        = if trailingZeros (nextPow2 size) = k then [0] else [] := by
      intro k
      rw [getL_set]
      have hrep : getL (List.replicate (trailingZeros (nextPow2 size) + 1)
          ([] : List Nat)) k = [] := by
        unfold getL
        rcases Nat.lt_or_ge k (trailingZeros (nextPow2 size) + 1) with hk | hk
        · simp [List.getD_eq_getElem?_getD, List.getElem?_replicate, hk]
        · have hlen2 : (List.replicate (trailingZeros (nextPow2 size) + 1)
              ([] : List Nat)).length ≤ k := by simpa using hk
          simp [List.getD_eq_getElem?_getD, List.getElem?_eq_none hlen2]
      simp only [List.length_replicate]
      rw [hrep]
      split <;> split <;> simp_all
    calc ∑ k ∈ Finset.range (trailingZeros (nextPow2 size) + 1),
          countIn (getL ((List.replicate (trailingZeros (nextPow2 size) + 1)
            ([] : List Nat)).set (trailingZeros (nextPow2 size)) [0]) k) k x
        = ∑ k ∈ Finset.range (trailingZeros (nextPow2 size) + 1),
            (if trailingZeros (nextPow2 size) = k
              then countIn [0] k x else 0) := by
          refine Finset.sum_congr rfl ?_
          intro k _
          rw [hget k]
          split <;> simp [countIn]
      _ = countIn [0] (trailingZeros (nextPow2 size)) x := by
          rw [Finset.sum_ite_eq]
          simp
      _ ≤ 1 := by
          simp [countIn]
          exact hitB_le_one _ _ _
  · intro al hal
    cases hal

/-- The final live list of a run from a fresh allocator, with its
separation invariant. -/
theorem runOps_from_new_sepInv (size min_size : Nat) (ops : List AllocOp) :
    SepInv (runOps (MetaAllocator.new size min_size, []) ops) :=
  runOps_sepInv ops _ (new_sepInv size min_size)

/-- Total free space recorded in the free lists (`Σ list-length · 2^order`). -/
def freeSpaceGo : List (List Nat) → Nat → Nat
  | [], _ => 0
  | l :: rest, k => l.length * 2 ^ k + freeSpaceGo rest (k + 1)

def freeSpace (ls : List (List Nat)) : Nat := freeSpaceGo ls 0

/-- C1, counterexample to full coalescing.  On a fresh 8-unit allocator
(`new 8 1`), the sequence alloc 1 / alloc 1 / free both stays far below
capacity (at most 2 of 8 units live), yet after freeing every
outstanding allocation the free lists hold the blocks
`[3,4) [0,1) [4,8)` — 6 units in three fragments, not the full capacity
as one maximal block.  (The second `alloc 1` popped a block from every
nonempty free list and leaked `[1,2)` and `[2,3)`.) -/
theorem claim1_counterexample :
    (runOps (MetaAllocator.new 8 1, [])
        [.alloc 1, .alloc 1, .free 1, .free 0]).2 = []
    ∧ (runOps (MetaAllocator.new 8 1, [])
        [.alloc 1, .alloc 1, .free 1, .free 0]).1.free_lists
        = [[3, 0], [], [4], []]
    ∧ (MetaAllocator.new 8 1).max_order = 3
    ∧ freeSpace [[3, 0], [], [4], []] = 6
    ∧ freeSpace [[3, 0], [], [4], []] ≠ 2 ^ 3
    ∧ [[3, 0], [], [4], []] ≠ [([] : List Nat), [], [], [0]] := by
  refine ⟨by decide, by decide, by decide, by decide, by decide, by decide⟩

/-- C1 (amended): for every sequence of `alloc`/`free` calls (frees
always of outstanding allocations), no two simultaneously live ranges
ever overlap.  The full-coalescing half of the original claim is false
(see `claim1_counterexample`). -/
theorem claim1_no_overlap (size min_size : Nat) (ops : List AllocOp)
    (i j : Nat) (hij : i ≠ j)
    (hi : i < (runOps (MetaAllocator.new size min_size, []) ops).2.length)
    (hj : j < (runOps (MetaAllocator.new size min_size, []) ops).2.length)
    (x : Nat) :
    ¬ ((((runOps (MetaAllocator.new size min_size, []) ops).2.get ⟨i, hi⟩).start ≤ x
        ∧ x < (((runOps (MetaAllocator.new size min_size, []) ops).2.get ⟨i, hi⟩)).stop)
      ∧ ((((runOps (MetaAllocator.new size min_size, []) ops).2.get ⟨j, hj⟩)).start ≤ x
        ∧ x < (((runOps (MetaAllocator.new size min_size, []) ops).2.get ⟨j, hj⟩)).stop)) := by
  intro ⟨hx1, hx2⟩
  obtain ⟨hcount, _⟩ := runOps_from_new_sepInv size min_size ops
  set live := (runOps (MetaAllocator.new size min_size, []) ops).2 with hlive
  have hhi : hitA (live.get ⟨i, hi⟩) x = 1 := by
    unfold hitA
    exact if_pos ⟨hx1.1, hx1.2⟩
  have hhj : hitA (live.get ⟨j, hj⟩) x = 1 := by
    unfold hitA
    exact if_pos ⟨hx2.1, hx2.2⟩
  have h2 : 2 ≤ countLive live x := by
    rcases Nat.lt_or_ge i j with hlt | hge
    · have := two_le_countLive x live i j hlt hj
      omega
    · have hlt : j < i := by omega
      have := two_le_countLive x live j i hlt hi
      omega
  have := hcount x
  omega

/-- Witness for `claim1_no_overlap`: after two one-unit allocations
from a fresh 8-unit allocator the two live ranges (`[0,1)` and `[4,5)`)
are disjoint at every address. -/
theorem claim1_no_overlap_witness :
    (0 : Nat) ≠ 1
    ∧ 0 < (runOps (MetaAllocator.new 8 1, []) [.alloc 1, .alloc 1]).2.length
    ∧ 1 < (runOps (MetaAllocator.new 8 1, []) [.alloc 1, .alloc 1]).2.length
    ∧ ∀ x : Nat,
      ¬ ((((runOps (MetaAllocator.new 8 1, []) [.alloc 1, .alloc 1]).2.get
              ⟨0, by decide⟩).start ≤ x
          ∧ x < (((runOps (MetaAllocator.new 8 1, []) [.alloc 1, .alloc 1]).2.get
              ⟨0, by decide⟩)).stop)
        ∧ ((((runOps (MetaAllocator.new 8 1, []) [.alloc 1, .alloc 1]).2.get
              ⟨1, by decide⟩)).start ≤ x
          ∧ x < (((runOps (MetaAllocator.new 8 1, []) [.alloc 1, .alloc 1]).2.get
              ⟨1, by decide⟩)).stop)) :=
  ⟨by decide, by decide, by decide,
    fun x => claim1_no_overlap 8 1 [.alloc 1, .alloc 1] 0 1 (by decide)
      (by decide) (by decide) x⟩

/-! ## `RawBuf` (src/gfx/gl/mod.rs lines 346–404)

The graphics buffer sub-allocator.  `src/gfx/gl/mod.rs` imports
`BuddyAlloc`/`Alloc` from a revision of `src/mem` that is not in the
tree; `MetaAllocator`/`MetaAlloc` (src/mem/mod.rs) is the available
revision of that same buddy allocator and stands in for it here. -/

structure RawBuf where
  alloc : MetaAllocator
  allocs : Handles MetaAlloc

/-- `RawBuf::alloc` (named `bufAlloc` because `alloc` is the field
name).  Returns the handle, and also the carved region for
specification purposes (in Rust it is recorded in `self.allocs`).
`none` models the fatal out-of-space abort and the (unreachable in
practice) `Handles::track` panic. -/
def RawBuf.bufAlloc (rb : RawBuf) (size : Nat) : Option (Nat × MetaAlloc × RawBuf) :=
  match rb.alloc.alloc size with
  | (some al, a') =>
      match rb.allocs.track al with
      | some (hnd, hs) => some (hnd, al, ⟨a', hs⟩)
      | none => none
  | (none, _) => none

/-- `RawBuf::free`: only `self.allocs.untrack(hnd)` — the buddy
allocator is not touched. -/
def RawBuf.bufFree (rb : RawBuf) (hnd : Nat) : RawBuf :=
  { rb with allocs := rb.allocs.untrack hnd }

inductive RawOp where
  | ralloc (size : Nat)
  | rfree (hnd : Nat)

/-- Run a sequence of `RawBuf` calls and collect every region a
successful `alloc` hands out.  A fatal abort ends the run. -/
def runRawOps : RawBuf → List RawOp → List MetaAlloc
  | _, [] => []
  | rb, (.ralloc size) :: rest =>
      match rb.bufAlloc size with
      | some (_, al, rb') => al :: runRawOps rb' rest
      | none => []
  | rb, (.rfree hnd) :: rest => runRawOps (rb.bufFree hnd) rest

theorem bufAlloc_keeps_zero (rb : RawBuf) (size : Nat) (x : Nat)
    (h0 : countFreeAt rb.alloc.free_lists x = 0) :
    ∀ hnd al rb', rb.bufAlloc size = some (hnd, al, rb') →
      ¬ (al.start ≤ x ∧ x < al.stop) ∧ countFreeAt rb'.alloc.free_lists x = 0 := by
  intro hnd al rb' h
  unfold RawBuf.bufAlloc at h
  rcases hres : rb.alloc.alloc size with ⟨res, a'⟩
  rw [hres] at h
  cases res with
  | none => simp at h
  | some al₀ =>
      simp only at h
      rcases htr : rb.allocs.track al₀ with _ | ⟨hnd₀, hs⟩
      · rw [htr] at h; simp at h
      · rw [htr] at h
        simp only [Option.some.injEq] at h
        obtain ⟨rfl, rfl, rfl⟩ := h
        have hc := alloc_count_le rb.alloc size x
        rw [hres] at hc
        simp only at hc
        constructor
        · intro hx
          have : hitA al x = 1 := by
            unfold hitA
            exact if_pos ⟨hx.1, hx.2⟩
          omega
        · show countFreeAt a'.free_lists x = 0
          omega

/-- C9: `RawBuf::free` only pushes the handle onto the handle-table
free list; the buddy allocator state (and even the stale table entry)
is untouched, and since the freed region's addresses are absent from
the buddy free lists, no later `RawBuf::alloc` in any subsequent call
sequence can ever return a range containing them — the bytes leak. -/
theorem claim9_free_leaks (rb : RawBuf) (hnd : Nat) (R : MetaAlloc)
    (hfree : ∀ x, R.start ≤ x → x < R.stop →
      countFreeAt rb.alloc.free_lists x = 0) :
    (rb.bufFree hnd).alloc = rb.alloc
    ∧ (rb.bufFree hnd).allocs.items = rb.allocs.items
    ∧ (rb.bufFree hnd).allocs.free_list = rb.allocs.free_list ++ [hnd]
    ∧ ∀ ops al, al ∈ runRawOps (rb.bufFree hnd) ops →
        ∀ x, R.start ≤ x → x < R.stop → ¬ (al.start ≤ x ∧ x < al.stop) := by
  refine ⟨rfl, rfl, rfl, ?_⟩
  have main : ∀ (ops : List RawOp) (rb' : RawBuf),
      (∀ x, R.start ≤ x → x < R.stop → countFreeAt rb'.alloc.free_lists x = 0) →
      ∀ al, al ∈ runRawOps rb' ops →
        ∀ x, R.start ≤ x → x < R.stop → ¬ (al.start ≤ x ∧ x < al.stop) := by
    intro ops
    induction ops with
    | nil => intro rb' _ al hal; cases hal
    | cons op rest ih =>
        intro rb' hz al hal x hx1 hx2
        cases op with
        | ralloc size =>
            rw [runRawOps] at hal
            rcases hba : rb'.bufAlloc size with _ | ⟨hnd₀, al₀, rb''⟩
            · rw [hba] at hal; cases hal
            · rw [hba] at hal
              have hk := bufAlloc_keeps_zero rb' size x (hz x hx1 hx2)
                hnd₀ al₀ rb'' hba
              cases hal with
              | head => exact hk.1
              | tail _ htl =>
                  have hz' : ∀ y, R.start ≤ y → y < R.stop →
                      countFreeAt rb''.alloc.free_lists y = 0 := by
                    intro y hy1 hy2
                    exact (bufAlloc_keeps_zero rb' size y (hz y hy1 hy2)
                      hnd₀ al₀ rb'' hba).2
                  exact ih rb'' hz' al htl x hx1 hx2
        | rfree hnd₀ =>
            rw [runRawOps] at hal
            exact ih (rb'.bufFree hnd₀) hz al hal x hx1 hx2
  exact fun ops => main ops (rb.bufFree hnd) hfree

/-- Witness for `claim9_free_leaks`: a buffer whose buddy allocator has
handed out `[0,512)` (tracked as handle 0) and still holds `[512,1024)`
free; after `free 0`, a following `alloc 512` returns `[512,1024)`,
never the leaked `[0,512)`. -/
theorem claim9_free_leaks_witness :
    (∀ x, (0 : Nat) ≤ x → x < 512 →
      countFreeAt (⟨⟨9, 10, [[], [], [], [], [], [], [], [], [], [512], []]⟩,
        ⟨[⟨0, 512⟩], []⟩⟩ : RawBuf).alloc.free_lists x = 0)
    ∧ ((⟨⟨9, 10, [[], [], [], [], [], [], [], [], [], [512], []]⟩,
        ⟨[⟨0, 512⟩], []⟩⟩ : RawBuf).bufFree 0).alloc
        = (⟨⟨9, 10, [[], [], [], [], [], [], [], [], [], [512], []]⟩,
        ⟨[⟨0, 512⟩], []⟩⟩ : RawBuf).alloc := by
  constructor
  · intro x hx1 hx2
    have hx2' : x < 512 := hx2
    unfold countFreeAt
    apply Finset.sum_eq_zero
    intro k hk
    fin_cases hk <;> simp [getL, countIn, hitB] <;> omega
  · refine (claim9_free_leaks _ 0 ⟨0, 512⟩ ?_).1
    intro x hx1 hx2
    have hx2' : x < 512 := hx2
    unfold countFreeAt
    apply Finset.sum_eq_zero
    intro k hk
    fin_cases hk <;> simp [getL, countIn, hitB] <;> omega

/-! ## Claim C10: `Handles::untrack` double free -/

/-- C10: `Handles::untrack` performs no validity check — after calling
`untrack` twice with the same (in-bounds) index, the next two `track`
calls both return that index, so two distinct live items alias one
slot. -/
theorem claim10_untrack_unchecked {α : Type} (h : Handles α) (idx : Nat)
    (x y : α) (hidx : idx < h.items.length) :
    ∃ h₁ h₂, ((h.untrack idx).untrack idx).track x = some (idx, h₁)
      ∧ h₁.track y = some (idx, h₂) := by
  refine ⟨⟨h.items.set idx x, h.free_list ++ [idx]⟩,
    ⟨(h.items.set idx x).set idx y, h.free_list⟩, ?_, ?_⟩
  · show Handles.track ⟨h.items, (h.free_list ++ [idx]) ++ [idx]⟩ x = _
    unfold Handles.track
    rw [List.getLast?_concat]
    simp [hidx, List.dropLast_concat]
  · unfold Handles.track
    simp only
    rw [List.getLast?_concat]
    simp [hidx, List.dropLast_concat]

/-- Witness for `claim10_untrack_unchecked` on a one-item table. -/
theorem claim10_witness :
    (0 : Nat) < ([0] : List Nat).length
    ∧ ∃ h₁ h₂,
        (((⟨[0], []⟩ : Handles Nat).untrack 0).untrack 0).track 1 = some (0, h₁)
        ∧ h₁.track 2 = some (0, h₂) :=
  ⟨by decide, claim10_untrack_unchecked ⟨[0], []⟩ 0 1 2 (by decide)⟩

/-! ## Claims C4 / C7: what `MetaAllocator::alloc` actually does -/

/-- C7, counterexample: `MetaAllocator::new(1024, 4)` has
`min_order = 2`, so the claimed minimum-order block has length
`2^2 = 4`; but `alloc(0)` computes
`max(0, min_order).next_power_of_two().trailing_zeros() = 1` — treating
the *order* 2 as a size — and returns the block `[0, 2)` of length 2. -/
theorem claim7_counterexample :
    ((MetaAllocator.new 1024 4).alloc 0).1 = some ⟨0, 2⟩
    ∧ (MetaAllocator.new 1024 4).min_order = 2
    ∧ (⟨0, 2⟩ : MetaAlloc).stop - (⟨0, 2⟩ : MetaAlloc).start ≠ 2 ^ 2 :=
  ⟨by decide, by decide, by decide⟩

/-- C4, counterexample: in the reachable state with
`free_lists = [[5], [6], [], []]` (after `new 8 1`, `alloc 4`,
`alloc 1`), a request of size 1 targets order 0, whose free list is
*nonempty* — the claim says the block `[5,6)` is returned and no other
free block is removed.  Instead the loop also pops the order-1 list
(there is no `break`), returns `[6,7)`, and the block `[5,6)` is gone
from every free list. -/
theorem claim4_counterexample :
    (((MetaAllocator.new 8 1).alloc 4).2.alloc 1).2.free_lists = [[5], [6], [], []]
    ∧ (((((MetaAllocator.new 8 1).alloc 4).2.alloc 1).2).alloc 1).1 = some ⟨6, 7⟩
    ∧ (((((MetaAllocator.new 8 1).alloc 4).2.alloc 1).2).alloc 1).2.free_lists
        = [[7], [], [], []] :=
  ⟨by decide, by decide, by decide⟩

/-- The orders whose free lists the `alloc` scan loop pops (every
nonempty list it visits). -/
def popsOf (ls : List (List Nat)) (cs : List Nat) : List Nat :=
  cs.filter (fun c => !(getL ls c).isEmpty)

/-- The buddies pushed onto free list `i` by the scan loop: one for
each pop at a larger order (ascending), provided `i` is at least the
target order. -/
def pushesTo (ls : List (List Nat)) (pops : List Nat) (order i : Nat) : List Nat :=
  if order ≤ i then
    (pops.filter (fun c => decide (i < c))).map (fun c => (getL ls c).headD 0 + 2 ^ i)
  else []

theorem allocSplit_length (off : Nat) : ∀ (ss : List Nat) (ls : List (List Nat)),
    (allocSplit off ls ss).length = ls.length := by
  intro ss
  induction ss with
  | nil => intro ls; rfl
  | cons s rest ih =>
      intro ls
      rw [allocSplit, ih]
      simp [pushBack]

theorem getL_allocSplit (off : Nat) : ∀ (ss : List Nat) (ls : List (List Nat)) (i : Nat),
    ss.Nodup → (∀ s ∈ ss, s < ls.length) →
    getL (allocSplit off ls ss) i
      = if i ∈ ss then getL ls i ++ [off + 2 ^ i] else getL ls i := by
  intro ss
  induction ss with
  | nil => intro ls i _ _; simp [allocSplit]
  | cons s rest ih =>
      intro ls i hnd hlen
      rw [allocSplit]
      have hs : s < ls.length := hlen s (by simp)
      have hnd' : rest.Nodup := (List.nodup_cons.mp hnd).2
      have hsrest : s ∉ rest := (List.nodup_cons.mp hnd).1
      have hlen' : ∀ t ∈ rest, t < (pushBack ls s (off + 2 ^ s)).length := by
        intro t ht
        have := hlen t (by simp [ht])
        simpa [pushBack] using this
      rw [ih (pushBack ls s (off + 2 ^ s)) i hnd' hlen']
      unfold pushBack
      rw [getL_set]
      by_cases his : i = s
      · subst his
        simp [hs, hsrest]
      · by_cases hir : i ∈ rest
        · simp [his, hir, Ne.symm his]
        · simp [his, hir, Ne.symm his]

theorem allocLoop_spec (order : Nat) : ∀ (cs : List Nat) (ls : List (List Nat))
    (found : Option Nat),
    List.Pairwise (· < ·) cs →
    (∀ c ∈ cs, order ≤ c) →
    (∀ c ∈ cs, c < ls.length) →
    (allocLoop order ls found cs).2
        = (match (popsOf ls cs).getLast? with
            | some c => some ((getL ls c).headD 0)
            | none => found)
    ∧ ∀ i, getL (allocLoop order ls found cs).1 i
        = (if i ∈ popsOf ls cs then (getL ls i).tail else getL ls i)
          ++ pushesTo ls (popsOf ls cs) order i := by
  intro cs
  induction cs with
  | nil =>
      intro ls found _ _ _
      constructor
      · simp [allocLoop, popsOf]
      · intro i
        simp [allocLoop, popsOf, pushesTo]
  | cons c rest ih =>
      intro ls found hsort horder hlen
      have hc : order ≤ c := horder c (by simp)
      have hcl : c < ls.length := hlen c (by simp)
      have hsort' : List.Pairwise (· < ·) rest := hsort.tail
      have hcrest : ∀ d ∈ rest, c < d := fun d hd => (List.pairwise_cons.mp hsort).1 d hd
      cases hget : getL ls c with
      | nil =>
          rw [allocLoop, hget]
          have hpops : popsOf ls (c :: rest) = popsOf ls rest := by
            unfold popsOf
            rw [List.filter_cons]
            simp [hget]
          obtain ⟨ih1, ih2⟩ := ih ls found hsort'
            (fun d hd => horder d (by simp [hd])) (fun d hd => hlen d (by simp [hd]))
          rw [hpops]
          exact ⟨ih1, ih2⟩
      | cons off tl =>
          rw [allocLoop, hget]
          set ss := (List.range' order (c - order)).reverse with hss
          set ls₂ := allocSplit off (ls.set c tl) ss with hls₂
          have hmemss : ∀ i, i ∈ ss ↔ (order ≤ i ∧ i < c) := by
            intro i
            rw [hss, List.mem_reverse, List.mem_range'_1]
            omega
          have hndss : ss.Nodup := by
            rw [hss]
            exact List.nodup_reverse.mpr (List.nodup_range' _ _)
          have hlenss : ∀ s ∈ ss, s < (ls.set c tl).length := by
            intro s hs
            have := (hmemss s).mp hs
            simp only [List.length_set]
            omega
          have hgetls₂ : ∀ i, getL ls₂ i
              = (if i = c then tl else getL ls i)
                ++ (if order ≤ i ∧ i < c then [off + 2 ^ i] else []) := by
            intro i
            rw [hls₂, getL_allocSplit off ss (ls.set c tl) i hndss hlenss]
            rw [getL_set]
            by_cases hic : i = c
            · subst hic
              have : ¬ (i ∈ ss) := by
                rw [hmemss]; omega
              simp [this, hcl]
            · by_cases hins : i ∈ ss
              · have hr := (hmemss i).mp hins
                simp [hins, hic, Ne.symm hic, hr]
              · have hr : ¬ (order ≤ i ∧ i < c) := fun hcon => hins ((hmemss i).mpr hcon)
                simp [hins, hic, Ne.symm hic, hr]
          have hlen₂ : ls₂.length = ls.length := by
            rw [hls₂, allocSplit_length]
            simp
          have hrest₂ : ∀ d ∈ rest, getL ls₂ d = getL ls d := by
            intro d hd
            have hcd : c < d := hcrest d hd
            rw [hgetls₂ d]
            have h1 : ¬ (d = c) := by omega
            have h2 : ¬ (order ≤ d ∧ d < c) := by omega
            simp [h1, h2]
          have hpops₂ : popsOf ls₂ rest = popsOf ls rest := by
            unfold popsOf
            apply List.filter_congr
            intro d hd
            rw [hrest₂ d hd]
          have hpops : popsOf ls (c :: rest) = c :: popsOf ls rest := by
            unfold popsOf
            rw [List.filter_cons]
            simp [hget]
          obtain ⟨ih1, ih2⟩ := ih ls₂ (some off) hsort'
            (fun d hd => horder d (by simp [hd]))
            (fun d hd => by rw [hlen₂]; exact hlen d (by simp [hd]))
          constructor
          · rw [ih1, hpops₂, hpops]
            cases hplast : (popsOf ls rest).getLast? with
            | none =>
                have hnil : popsOf ls rest = [] := by
                  rwa [List.getLast?_eq_none_iff] at hplast
                rw [hnil]
                simp [hget]
            | some p =>
                have hpmem : p ∈ popsOf ls rest := by
                  have hne : popsOf ls rest ≠ [] := by
                    intro hcon
                    rw [hcon] at hplast
                    simp at hplast
                  have := List.getLast?_eq_getLast (popsOf ls rest) hne
                  rw [this] at hplast
                  have hg := List.getLast_mem hne
                  simp only [Option.some.injEq] at hplast
                  rwa [hplast] at hg
                have hprest : p ∈ rest := List.mem_of_mem_filter hpmem
                have hne : popsOf ls rest ≠ [] := by
                  intro hcon
                  rw [hcon] at hplast
                  simp at hplast
                have hlast : (c :: popsOf ls rest).getLast? = some p := by
                  cases hpr : popsOf ls rest with
                  | nil => exact absurd hpr hne
                  | cons q qs =>
                      rw [List.getLast?_cons_cons, ← hpr, hplast]
                rw [hlast]
                simp [hrest₂ p hprest]
          · intro i
            rw [ih2 i, hpops₂, hpops]
            have hpushes : pushesTo ls₂ (popsOf ls rest) order i
                = pushesTo ls (popsOf ls rest) order i := by
              unfold pushesTo
              by_cases hoi : order ≤ i
              · simp only [hoi, if_true, ite_true]
                apply List.map_congr_left
                intro d hd
                have hdrest : d ∈ rest :=
                  List.mem_of_mem_filter (List.mem_of_mem_filter hd)
                rw [hrest₂ d hdrest]
              · simp [hoi]
            rw [hpushes]
            have hpushcons : pushesTo ls (c :: popsOf ls rest) order i
                = (if order ≤ i ∧ i < c then [off + 2 ^ i] else [])
                  ++ pushesTo ls (popsOf ls rest) order i := by
              unfold pushesTo
              by_cases hoi : order ≤ i
              · simp only [hoi, if_true, ite_true, List.filter_cons]
                by_cases hic : i < c
                · simp [hic, hget, hoi]
                · simp [hic, hoi]
              · simp [hoi]
            rw [hpushcons, hgetls₂ i]
            by_cases hic : i = c
            · have h1 : ¬ (c ∈ popsOf ls rest) := by
                intro hcon
                have := hcrest c (List.mem_of_mem_filter hcon)
                omega
              have h2 : ¬ (order ≤ i ∧ i < c) := by omega
              have h3 : i ∈ c :: popsOf ls rest := by
                simp [hic]
              simp [h1, h2, h3, hic, hget]
            · by_cases him : i ∈ popsOf ls rest
              · have higt : c < i := hcrest i (List.mem_of_mem_filter him)
                have h2 : ¬ (order ≤ i ∧ i < c) := by omega
                have h3 : i ∈ c :: popsOf ls rest := by simp [him]
                simp [him, h2, h3, hic]
              · have h3 : ¬ (i ∈ c :: popsOf ls rest) := by
                  simp [hic, him]
                simp [him, h3, hic, List.append_assoc]

/-- C4 (amended): what `alloc` actually does.  The target order is
`(max(size, min_order)).next_power_of_two().trailing_zeros()` — the
`min_order` field (an order) is compared against the request as though
it were a size.  When at least one free list with order in
`[order, max_order]` is nonempty, the call pops the first block of
*every* nonempty free list in that range (there is no `break`), returns
the low `2^order` part of the block popped from the *largest* such
order, and appends to each list `i ≥ order` one split buddy
`head_c + 2^i` for every pop at an order `c > i`; the low parts of all
pops but the last are dropped from the allocator (leaked). -/
theorem claim4_amended (a : MetaAllocator) (size order : Nat)
    (ho : order = trailingZeros (nextPow2 (max size a.min_order)))
    (hwf : a.free_lists.length = a.max_order + 1)
    (hne : popsOf a.free_lists (List.range' order (a.max_order + 1 - order)) ≠ []) :
    ∃ cstar,
      (popsOf a.free_lists (List.range' order (a.max_order + 1 - order))).getLast?
        = some cstar
      ∧ (a.alloc size).1
          = some ⟨(getL a.free_lists cstar).headD 0,
              (getL a.free_lists cstar).headD 0 + 2 ^ order⟩
      ∧ ∀ i, getL (a.alloc size).2.free_lists i
          = (if i ∈ popsOf a.free_lists (List.range' order (a.max_order + 1 - order))
              then (getL a.free_lists i).tail else getL a.free_lists i)
            ++ pushesTo a.free_lists
                (popsOf a.free_lists (List.range' order (a.max_order + 1 - order)))
                order i := by
  subst ho
  set order := trailingZeros (nextPow2 (max size a.min_order)) with ho
  have hrange : order ≤ a.max_order := by
    by_contra hcon
    have : a.max_order + 1 - order = 0 := by omega
    rw [this] at hne
    simp [popsOf, List.range'] at hne
  rcases hlastex : (popsOf a.free_lists
      (List.range' order (a.max_order + 1 - order))).getLast? with _ | cstar
  · rw [List.getLast?_eq_none_iff] at hlastex
    exact absurd hlastex hne
  refine ⟨cstar, rfl, ?_⟩
  have hspec := allocLoop_spec order (List.range' order (a.max_order + 1 - order))
    a.free_lists none (List.pairwise_lt_range' _ _)
    (fun c hc => by
      have := List.mem_range'_1.mp hc
      omega)
    (fun c hc => by
      have := List.mem_range'_1.mp hc
      omega)
  obtain ⟨hfound, hlists⟩ := hspec
  rw [hlastex] at hfound
  unfold MetaAllocator.alloc
  rw [← ho]
  have hmax : ¬ (a.max_order < order) := by omega
  simp only [hmax, if_false, ite_false]
  rcases hres : allocLoop order a.free_lists none
      (List.range' order (a.max_order + 1 - order)) with ⟨ls', found⟩
  rw [hres] at hfound hlists
  simp only at hfound hlists
  cases found with
  | none => simp at hfound
  | some off =>
      simp only [Option.some.injEq] at hfound
      subst hfound
      exact ⟨rfl, hlists⟩

/-- Witness for `claim4_amended` in the `claim4_counterexample` state:
both order-0 and order-1 free lists are nonempty, the last pop is at
order 1 and the call returns `[6, 7)`. -/
theorem claim4_amended_witness :
    (0 : Nat) = trailingZeros (nextPow2 (max 1
      (((MetaAllocator.new 8 1).alloc 4).2.alloc 1).2.min_order))
    ∧ (((MetaAllocator.new 8 1).alloc 4).2.alloc 1).2.free_lists.length
        = (((MetaAllocator.new 8 1).alloc 4).2.alloc 1).2.max_order + 1
    ∧ popsOf (((MetaAllocator.new 8 1).alloc 4).2.alloc 1).2.free_lists
        (List.range' 0 ((((MetaAllocator.new 8 1).alloc 4).2.alloc 1).2.max_order + 1 - 0))
        ≠ []
    ∧ ∃ cstar,
      (popsOf (((MetaAllocator.new 8 1).alloc 4).2.alloc 1).2.free_lists
        (List.range' 0 ((((MetaAllocator.new 8 1).alloc 4).2.alloc 1).2.max_order + 1 - 0))).getLast?
        = some cstar
      ∧ ((((MetaAllocator.new 8 1).alloc 4).2.alloc 1).2.alloc 1).1
          = some ⟨(getL (((MetaAllocator.new 8 1).alloc 4).2.alloc 1).2.free_lists cstar).headD 0,
              (getL (((MetaAllocator.new 8 1).alloc 4).2.alloc 1).2.free_lists cstar).headD 0 + 2 ^ 0⟩
      ∧ ∀ i, getL ((((MetaAllocator.new 8 1).alloc 4).2.alloc 1).2.alloc 1).2.free_lists i
          = (if i ∈ popsOf (((MetaAllocator.new 8 1).alloc 4).2.alloc 1).2.free_lists
                (List.range' 0 ((((MetaAllocator.new 8 1).alloc 4).2.alloc 1).2.max_order + 1 - 0))
              then (getL (((MetaAllocator.new 8 1).alloc 4).2.alloc 1).2.free_lists i).tail
              else getL (((MetaAllocator.new 8 1).alloc 4).2.alloc 1).2.free_lists i)
            ++ pushesTo (((MetaAllocator.new 8 1).alloc 4).2.alloc 1).2.free_lists
                (popsOf (((MetaAllocator.new 8 1).alloc 4).2.alloc 1).2.free_lists
                  (List.range' 0 ((((MetaAllocator.new 8 1).alloc 4).2.alloc 1).2.max_order + 1 - 0)))
                0 i :=
  ⟨by decide, by decide, by decide,
    claim4_amended (((MetaAllocator.new 8 1).alloc 4).2.alloc 1).2 1 0
      (by decide) (by decide) (by decide)⟩

/-- C7 (amended): with free space available at a usable order,
`alloc(0)` succeeds and returns a block of length
`next_power_of_two(min_order)` — never zero-length, but equal to the
claimed `2^min_order` only for `min_order = 0` (the `min_order` field
is conflated with a size, see `claim7_counterexample`). -/
theorem claim7_amended (a : MetaAllocator)
    (hwf : a.free_lists.length = a.max_order + 1)
    (hne : popsOf a.free_lists
      (List.range' (trailingZeros (nextPow2 a.min_order))
        (a.max_order + 1 - trailingZeros (nextPow2 a.min_order))) ≠ []) :
    ∃ al, (a.alloc 0).1 = some al
      ∧ al.stop - al.start = nextPow2 a.min_order
      ∧ 0 < al.stop - al.start := by
  have hmax0 : max 0 a.min_order = a.min_order := by omega
  have ho : trailingZeros (nextPow2 a.min_order)
      = trailingZeros (nextPow2 (max 0 a.min_order)) := by rw [hmax0]
  obtain ⟨cstar, _, hres, _⟩ := claim4_amended a 0
    (trailingZeros (nextPow2 a.min_order)) ho hwf hne
  refine ⟨_, hres, ?_, ?_⟩
  · simp only
    rw [two_pow_trailingZeros_nextPow2]
    omega
  · simp only
    have := nextPow2_pos a.min_order
    have h2 := two_pow_trailingZeros_nextPow2 a.min_order
    omega

/-- Witness for `claim7_amended`: a fresh `new 1024 4` allocator. -/
theorem claim7_amended_witness :
    (MetaAllocator.new 1024 4).free_lists.length
      = (MetaAllocator.new 1024 4).max_order + 1
    ∧ popsOf (MetaAllocator.new 1024 4).free_lists
        (List.range' (trailingZeros (nextPow2 (MetaAllocator.new 1024 4).min_order))
          ((MetaAllocator.new 1024 4).max_order + 1
            - trailingZeros (nextPow2 (MetaAllocator.new 1024 4).min_order))) ≠ []
    ∧ ∃ al, ((MetaAllocator.new 1024 4).alloc 0).1 = some al
        ∧ al.stop - al.start = nextPow2 (MetaAllocator.new 1024 4).min_order
        ∧ 0 < al.stop - al.start :=
  ⟨by decide, by decide, claim7_amended _ (by decide) (by decide)⟩

/-! ## Claim C6: `BitMap` capacity -/

/-- C6, counterexample: `BitMap::new(1)` rounds its bit vector up to
one whole 64-bit word, so with `N = 1` the second (`N+1`-th) `set_any`
call returns `Some 1` instead of failing. -/
theorem claim6_counterexample :
    ((BitMap.new 1).set_any).1 = some 0
    ∧ (((BitMap.new 1).set_any).2.set_any).1 = some 1
    ∧ (((BitMap.new 1).set_any).2.set_any).1 ≠ none :=
  ⟨by decide, by decide, by decide⟩

/-- `k` repeated `set_any` calls. -/
def setAnyIter (b : BitMap) : Nat → BitMap
  | 0 => b
  | k + 1 => (setAnyIter b k).set_any.2

/-- The word vector after `k` successful `set_any` calls on a fresh
`W`-word bitmap: full words, then `k % 64` low bits, then zeros. -/
def fullWords : Nat → Nat → List Nat
  | 0, _ => []
  | W + 1, k => (if 64 ≤ k then u64Max else 2 ^ k - 1) :: fullWords W (k - 64)

theorem fullWords_zero : ∀ W, fullWords W 0 = List.replicate W 0 := by
  intro W
  induction W with
  | zero => rfl
  | succ W ih => simp [fullWords, ih, List.replicate]

theorem trailingOnesGo_pred_two_pow : ∀ (k fuel : Nat), k ≤ fuel →
    trailingOnesGo fuel (2 ^ k - 1) = k := by
  intro k
  induction k with
  | zero =>
      intro fuel _
      cases fuel with
      | zero => rfl
      | succ fuel => simp [trailingOnesGo]
  | succ k ih =>
      intro fuel hf
      match fuel, hf with
      | fuel + 1, hf =>
          have hpos : 1 ≤ 2 ^ k := Nat.one_le_two_pow
          have hmod : (2 ^ (k + 1) - 1) % 2 = 1 := by
            have : 2 ^ (k + 1) = 2 * 2 ^ k := by ring
            omega
          have hdiv : (2 ^ (k + 1) - 1) / 2 = 2 ^ k - 1 := by
            have : 2 ^ (k + 1) = 2 * 2 ^ k := by ring
            omega
          rw [trailingOnesGo, if_pos hmod, hdiv, ih fuel (by omega)]

theorem trailingOnes_pred_two_pow (k : Nat) : trailingOnes (2 ^ k - 1) = k := by
  cases k with
  | zero => rfl
  | succ k =>
      have h : k + 1 ≤ 2 ^ (k + 1) - 1 := by
        have := Nat.lt_two_pow (k + 1)
        omega
      exact trailingOnesGo_pred_two_pow (k + 1) (2 ^ (k + 1) - 1) h

theorem lor_pred_two_pow : ∀ k : Nat, (2 ^ k - 1) ||| 2 ^ k = 2 ^ (k + 1) - 1 := by
  intro k
  induction k with
  | zero => decide
  | succ k ih =>
      have h1 : 2 ^ (k + 1) - 1 = Nat.bit true (2 ^ k - 1) := by
        rw [Nat.bit_val]
        simp only [Bool.toNat_true]
        have : 2 ^ (k + 1) = 2 * 2 ^ k := by ring
        have := Nat.one_le_two_pow (n := k)
        omega
      have h2 : 2 ^ (k + 1) = Nat.bit false (2 ^ k) := by
        rw [Nat.bit_val]
        simp only [Bool.toNat_false]
        have : 2 ^ (k + 1) = 2 * 2 ^ k := by ring
        omega
      rw [h1, h2, Nat.lor_bit, ih]
      rw [Nat.bit_val]
      simp only [Bool.true_or, Bool.toNat_true]
      have : 2 ^ (k + 1 + 1) = 2 * 2 ^ (k + 1) := by ring
      have := Nat.one_le_two_pow (n := k + 1)
      omega

theorem scanWords_fullWords : ∀ (W k : Nat), k < 64 * W →
    scanWords (fullWords W k) = some (k, fullWords W (k + 1)) := by
  intro W
  induction W with
  | zero => intro k hk; omega
  | succ W ih =>
      intro k hk
      by_cases h64 : 64 ≤ k
      · have hw : fullWords (W + 1) k = u64Max :: fullWords W (k - 64) := by
          simp [fullWords, h64]
        rw [hw, scanWords, if_pos rfl]
        have hk' : k - 64 < 64 * W := by omega
        rw [ih (k - 64) hk']
        have h1 : k - 64 + 64 = k := by omega
        have h2 : fullWords (W + 1) (k + 1)
            = u64Max :: fullWords W (k + 1 - 64) := by
          simp [fullWords, show 64 ≤ k + 1 by omega]
        have h3 : k + 1 - 64 = k - 64 + 1 := by omega
        simp [h1, h2, h3]
      · push_neg at h64
        have hw : fullWords (W + 1) k = (2 ^ k - 1) :: fullWords W 0 := by
          simp [fullWords, show ¬ (64 ≤ k) by omega, show k - 64 = 0 by omega]
        have hne : 2 ^ k - 1 ≠ u64Max := by
          have hlt : (2 : Nat) ^ k < 2 ^ 64 :=
            Nat.pow_lt_pow_right (by omega) (by omega)
          have := Nat.one_le_two_pow (n := k)
          unfold u64Max
          omega
        rw [hw, scanWords, if_neg hne]
        simp only [trailingOnes_pred_two_pow, lor_pred_two_pow]
        by_cases hk1 : k + 1 < 64
        · have h2 : fullWords (W + 1) (k + 1)
              = (2 ^ (k + 1) - 1) :: fullWords W 0 := by
            simp [fullWords, show ¬ (64 ≤ k + 1) by omega,
              show k + 1 - 64 = 0 by omega]
          rw [h2]
        · have hk64 : k + 1 = 64 := by omega
          have h2 : fullWords (W + 1) (k + 1) = u64Max :: fullWords W 0 := by
            simp [fullWords, show 64 ≤ k + 1 by omega,
              show k + 1 - 64 = 0 by omega]
          rw [h2, hk64]
          rfl

theorem scanWords_fullWords_full : ∀ W : Nat,
    scanWords (fullWords W (64 * W)) = none := by
  intro W
  induction W with
  | zero => rfl
  | succ W ih =>
      have harg : 64 * (W + 1) - 64 = 64 * W := by omega
      have hw : fullWords (W + 1) (64 * (W + 1))
          = u64Max :: fullWords W (64 * W) := by
        show (if 64 ≤ 64 * (W + 1) then u64Max else 2 ^ (64 * (W + 1)) - 1)
            :: fullWords W (64 * (W + 1) - 64)
          = u64Max :: fullWords W (64 * W)
        rw [harg, if_pos (by omega)]
      rw [hw, scanWords, if_pos rfl, ih]
      rfl

theorem setAnyIter_state (N : Nat) : ∀ k, k ≤ 64 * ((N + (64 - 1)) / 64) →
    setAnyIter (BitMap.new N) k
      = ⟨fullWords ((N + (64 - 1)) / 64) k, []⟩ := by
  intro k
  induction k with
  | zero =>
      intro _
      show BitMap.new N = _
      unfold BitMap.new
      rw [← fullWords_zero]
  | succ k ih =>
      intro hk
      rw [setAnyIter, ih (by omega)]
      unfold BitMap.set_any
      simp only [List.getLast?_nil]
      rw [scanWords_fullWords _ k (by omega)]

/-- C6 (amended): `BitMap::new(N)` rounds capacity up to whole 64-bit
words: from a fresh bitmap, `set_any` succeeds on exactly the first
`64 * ⌈N/64⌉` calls (the `k`-th call returns index `k`) and fails on
the next — so the `(N+1)`-th call fails only when `N` is a multiple of
64 (see `claim6_counterexample` for `N = 1`). -/
theorem claim6_amended (N : Nat) :
    (∀ k, k < 64 * ((N + (64 - 1)) / 64) →
      (setAnyIter (BitMap.new N) k).set_any.1 = some k)
    ∧ (setAnyIter (BitMap.new N) (64 * ((N + (64 - 1)) / 64))).set_any.1 = none := by
  constructor
  · intro k hk
    rw [setAnyIter_state N k (by omega)]
    unfold BitMap.set_any
    simp only [List.getLast?_nil]
    rw [scanWords_fullWords _ k hk]
  · rw [setAnyIter_state N _ le_rfl]
    unfold BitMap.set_any
    simp only [List.getLast?_nil]
    rw [scanWords_fullWords_full]

/-- Witness for `claim6_amended` with `N = 1`: the first call returns
slot 0 and the 65th call fails. -/
theorem claim6_amended_witness :
    ((0 : Nat) < 64 * ((1 + (64 - 1)) / 64)
      ∧ (setAnyIter (BitMap.new 1) 0).set_any.1 = some 0)
    ∧ (setAnyIter (BitMap.new 1) (64 * ((1 + (64 - 1)) / 64))).set_any.1 = none :=
  ⟨⟨by decide, (claim6_amended 1).1 0 (by decide)⟩, (claim6_amended 1).2⟩

/-! ## Math over ℚ (src/math/vec.rs, quat.rs, xform.rs)

`f32` scalars are modelled as rationals.  Every spec claim below only
evaluates these operations at points where `f32` arithmetic is exact
(small integers, identity quaternions), so the ℚ model agrees with the
`f32` code there.  `f32::sqrt` is modelled by `ratSqrt`, exact wherever
the true square root is rational — in the verified claims it is only
applied to 1. -/

structure V3 where
  x : ℚ
  y : ℚ
  z : ℚ
deriving DecidableEq, Repr

structure V4 where
  x : ℚ
  y : ℚ
  z : ℚ
  w : ℚ
deriving DecidableEq, Repr

/-- Fuel-structural integer square root (largest `r ≤ fuel` with
`r*r ≤ n`), used only inside `ratSqrt`. -/
def natSqrtGo (n : Nat) : Nat → Nat
  | 0 => 0
  | r + 1 => if (r + 1) * (r + 1) ≤ n then r + 1 else natSqrtGo n r

def natSqrt (n : Nat) : Nat := natSqrtGo n n

/-- Model of `f32::sqrt` on ℚ: exact where the true square root is
rational; other inputs (never reached by the claims) map to 0. -/
def ratSqrt (q : ℚ) : ℚ :=
  if 0 ≤ q ∧ natSqrt q.num.toNat * natSqrt q.num.toNat = q.num.toNat
      ∧ natSqrt q.den * natSqrt q.den = q.den then
    (natSqrt q.num.toNat : ℚ) / (natSqrt q.den : ℚ)
  else 0

theorem ratSqrt_one : ratSqrt 1 = 1 := by
  unfold ratSqrt natSqrt natSqrtGo
  norm_num

def V3.add (a b : V3) : V3 := ⟨a.x + b.x, a.y + b.y, a.z + b.z⟩

/-- Componentwise `V3 * V3` (vec.rs `vec3_binop!(V3, f32, Mul, mul)`). -/
def V3.mulV (a b : V3) : V3 := ⟨a.x * b.x, a.y * b.y, a.z * b.z⟩

/-- `V3 * f32` (scalar on the right, as in the source). -/
def V3.mulS (a : V3) (s : ℚ) : V3 := ⟨a.x * s, a.y * s, a.z * s⟩

def V3.neg (a : V3) : V3 := ⟨-a.x, -a.y, -a.z⟩

def V3.cross (a b : V3) : V3 :=
  ⟨a.y * b.z - a.z * b.y, a.z * b.x - a.x * b.z, a.x * b.y - a.y * b.x⟩

def V4.dot (a b : V4) : ℚ := a.x * b.x + a.y * b.y + a.z * b.z + a.w * b.w

def V4.length (a : V4) : ℚ := ratSqrt (a.dot a)

/-- `V4 / f32` componentwise (used by `normalized`). -/
def V4.divS (a : V4) (s : ℚ) : V4 := ⟨a.x / s, a.y / s, a.z / s, a.w / s⟩

def V4.normalized (a : V4) : V4 := a.divS a.length

def V4.narrowed (a : V4) : V3 × ℚ := (⟨a.x, a.y, a.z⟩, a.w)

/-- quat.rs: `pub struct Quat(pub V4);`. -/
structure Quat where
  v : V4
deriving DecidableEq, Repr

def Quat.IDENTITY : Quat := ⟨⟨0, 0, 0, 1⟩⟩

def Quat.normalized (q : Quat) : Quat := ⟨q.v.normalized⟩

/-- quat.rs `impl Mul<V3> for Quat`. -/
def Quat.mulV3 (q : Quat) (rhs : V3) : V3 :=
  let p := q.normalized.v.narrowed
  let conj := p.1.neg
  let t := (conj.cross rhs).mulS 2
  ((rhs.add (t.mulS p.2)).add (conj.cross t))

/-- quat.rs `impl Mul<Quat> for Quat`. -/
def Quat.mulQ (a b : Quat) : Quat :=
  ⟨⟨a.v.w * b.v.x + a.v.x * b.v.w + a.v.y * b.v.z - a.v.z * b.v.y,
    a.v.w * b.v.y - a.v.x * b.v.z + a.v.y * b.v.w + a.v.z * b.v.x,
    a.v.w * b.v.z + a.v.x * b.v.y - a.v.y * b.v.x + a.v.z * b.v.w,
    a.v.w * b.v.w - a.v.x * b.v.x - a.v.y * b.v.y - a.v.z * b.v.z⟩⟩

/-- xform.rs. -/
structure Xform3 where
  pos : V3
  scale : V3
  rot : Quat
deriving DecidableEq, Repr

def Xform3.IDENTITY : Xform3 := ⟨⟨0, 0, 0⟩, ⟨1, 1, 1⟩, Quat.IDENTITY⟩

/-- xform.rs `Concat for Xform3`. -/
def Xform3.concat (a rhs : Xform3) : Xform3 :=
  { pos := a.pos.add (a.rot.mulV3 (a.scale.mulV rhs.pos))
    scale := a.scale.mulV rhs.scale
    rot := a.rot.mulQ rhs.rot }

theorem quat_id_normalized : Quat.IDENTITY.normalized = Quat.IDENTITY := by
  unfold Quat.IDENTITY Quat.normalized V4.normalized V4.length V4.dot V4.divS
  norm_num [ratSqrt_one]

theorem quat_id_mulV3 (v : V3) : Quat.IDENTITY.mulV3 v = v := by
  cases v with
  | mk x y z =>
      unfold Quat.mulV3
      rw [quat_id_normalized]
      unfold Quat.IDENTITY V4.narrowed V3.neg V3.cross V3.mulS V3.add
      norm_num

theorem quat_id_mulQ (q : Quat) : Quat.IDENTITY.mulQ q = q := by
  rcases q with ⟨⟨x, y, z, w⟩⟩
  unfold Quat.IDENTITY Quat.mulQ
  norm_num

theorem id_concat (x : Xform3) : Xform3.IDENTITY.concat x = x := by
  rcases x with ⟨⟨px, py, pz⟩, ⟨sx, sy, sz⟩, q⟩
  unfold Xform3.concat Xform3.IDENTITY
  rw [quat_id_mulQ]
  unfold V3.mulV V3.add
  rw [show (⟨1, 1, 1⟩ : V3).x * px = px by norm_num]
  simp only
  norm_num [quat_id_mulV3 ⟨px, py, pz⟩, V3.add]

/-! ## Scene graph (src/scene.rs)

`Node.local` is renamed `localT` (`local` is reserved in Lean).
`Scene::update`'s loops are modelled with explicit fuel: `none` means
the update has not completed within `fuel` steps — claim C3 shows an
input on which it completes for *no* fuel (the Rust loop never
terminates). -/

structure Node where
  sib : Nat
  kid : Nat
  mesh : Nat
  tex : Nat
  blend : V4
  localT : Xform3
  world : Xform3
deriving Repr

instance : Inhabited Node :=
  ⟨⟨0, 0, 0, 0, ⟨0, 0, 0, 0⟩, Xform3.IDENTITY, Xform3.IDENTITY⟩⟩

def Node.INACTIVE : Nat := 4294967295

def Node.NONE : Nat := 0

def Node.is_active (n : Node) : Bool := n.kid ≠ Node.INACTIVE

structure Scene where
  active_nodes : List Nat
  nodes : List Node
  nodeq : List (Nat × Xform3)

/-- The inner `loop` of `Scene::update`: walk the sibling chain from
`id`.  Faithful to the source: an inactive node hits `continue`, which
re-enters the loop with the *same* `id` — the state does not change, so
the fuel alone decreases. -/
def chainGo : Nat → List Node → List Nat → List (Nat × Xform3) → Nat → Xform3 →
    Option (List Node × List Nat × List (Nat × Xform3))
  | 0, _, _, _, _, _ => none
  | fuel + 1, nodes, act, q, id, xf =>
      if h : id < nodes.length then
        let node := nodes.get ⟨id, h⟩
        if node.is_active then
          let world := xf.concat node.localT
          let nodes' := nodes.set id { node with world := world }
          let q' := if node.kid ≠ Node.NONE then q ++ [(node.kid, world)] else q
          let act' := act ++ [id]
          if node.sib = Node.NONE then some (nodes', act', q')
          else chainGo fuel nodes' act' q' node.sib xf
        else
          chainGo fuel nodes act q id xf
      else none

/-- The outer `while let Some(..) = self.nodeq.pop_front()` loop. -/
def updateGo : Nat → List Node → List Nat → List (Nat × Xform3) →
    Option (List Node × List Nat)
  | 0, _, _, _ => none
  | fuel + 1, nodes, act, q =>
      match q with
      | [] => some (nodes, act)
      | (id, xf) :: q' =>
          match chainGo (fuel + 1) nodes act q' id xf with
          | some (nodes', act', q'') => updateGo fuel nodes' act' q''
          | none => none

def Scene.update (s : Scene) (fuel : Nat) : Option Scene :=
  let init : List Nat × List (Nat × Xform3) :=
    if s.nodes.isEmpty then (s.active_nodes, s.nodeq)
    else ([], s.nodeq ++ [(0, Xform3.IDENTITY)])
  match updateGo fuel s.nodes init.1 init.2 with
  | some (nodes, act) => some ⟨act, nodes, []⟩
  | none => none

/-- A deactivated node (child index = the INACTIVE sentinel). -/
def inactiveNode : Node := { (default : Node) with kid := Node.INACTIVE }

theorem chainGo_stuck_inactive : ∀ (fuel : Nat) (nodes : List Node)
    (act : List Nat) (q : List (Nat × Xform3)) (id : Nat) (xf : Xform3)
    (h : id < nodes.length), ¬ (nodes.get ⟨id, h⟩).is_active →
    chainGo fuel nodes act q id xf = none := by
  intro fuel
  induction fuel with
  | zero => intro nodes act q id xf h _; rfl
  | succ fuel ih =>
      intro nodes act q id xf h hact
      rw [chainGo, dif_pos h]
      simp only [hact, Bool.false_eq_true, if_false, ite_false]
      exact ih nodes act q id xf h hact

/-- C3 is false of the code: with any inactive node reachable from the
traversal (here: a pool whose root slot has been deactivated), the
inner loop's `continue` never advances past it and `update` never
terminates — for *every* fuel bound the run is incomplete. -/
theorem claim3_update_diverges (fuel : Nat) :
    (Scene.mk [] [inactiveNode] []).update fuel = none := by
  have hact : ¬ ([inactiveNode].get ⟨0, by simp⟩).is_active := by decide
  have hchain : ∀ f, chainGo f [inactiveNode] [] [] 0 Xform3.IDENTITY = none :=
    fun f => chainGo_stuck_inactive f [inactiveNode] [] [] 0 Xform3.IDENTITY
      (by simp) hact
  unfold Scene.update
  cases fuel with
  | zero => rfl
  | succ fuel =>
      show (match updateGo (fuel + 1) [inactiveNode] [] [(0, Xform3.IDENTITY)] with
            | some (nodes, act) => some (Scene.mk act nodes [])
            | none => none) = none
      rw [show updateGo (fuel + 1) [inactiveNode] [] [(0, Xform3.IDENTITY)]
          = match chainGo (fuel + 1) [inactiveNode] [] [] 0 Xform3.IDENTITY with
            | some (n, a, q) => updateGo fuel n a q
            | none => none from rfl]
      rw [hchain (fuel + 1)]

/-! ## Claim C5: the A→B→C translation chain -/

def txA : Xform3 := ⟨⟨1, 0, 0⟩, ⟨1, 1, 1⟩, Quat.IDENTITY⟩

def txB : Xform3 := ⟨⟨0, 1, 0⟩, ⟨1, 1, 1⟩, Quat.IDENTITY⟩

def txC : Xform3 := ⟨⟨0, 0, 1⟩, ⟨1, 1, 1⟩, Quat.IDENTITY⟩

/-- The three-node chain: A at slot 0 (root), B at slot 1 (child of A),
C at slot 2 (child of B); sibling links all 0 (the NONE sentinel).
`la` is A's local transform. -/
def mkChain (la : Xform3) : Scene :=
  ⟨[], [
    { sib := 0, kid := 1, mesh := 0, tex := 0, blend := ⟨1, 1, 1, 1⟩,
      localT := la, world := Xform3.IDENTITY },
    { sib := 0, kid := 2, mesh := 0, tex := 0, blend := ⟨1, 1, 1, 1⟩,
      localT := txB, world := Xform3.IDENTITY },
    { sib := 0, kid := 0, mesh := 0, tex := 0, blend := ⟨1, 1, 1, 1⟩,
      localT := txC, world := Xform3.IDENTITY }], []⟩

/-- Symbolic evaluation of one update over the chain: every node's
world transform is the concatenation of its ancestors' locals (in
root-to-leaf order) regardless of A's local transform. -/
theorem update_mkChain (la : Xform3) :
    (mkChain la).update 10 = some ⟨[0, 1, 2], [
      { sib := 0, kid := 1, mesh := 0, tex := 0, blend := ⟨1, 1, 1, 1⟩,
        localT := la, world := Xform3.IDENTITY.concat la },
      { sib := 0, kid := 2, mesh := 0, tex := 0, blend := ⟨1, 1, 1, 1⟩,
        localT := txB, world := (Xform3.IDENTITY.concat la).concat txB },
      { sib := 0, kid := 0, mesh := 0, tex := 0, blend := ⟨1, 1, 1, 1⟩,
        localT := txC,
        world := ((Xform3.IDENTITY.concat la).concat txB).concat txC }], []⟩ := by
  unfold mkChain Scene.update
  simp [updateGo, chainGo, Node.is_active, Node.INACTIVE, Node.NONE,
    List.set]

/-- Concatenation of two pure translations adds the offsets. -/
theorem concat_translations (p q : V3) :
    (Xform3.mk p ⟨1, 1, 1⟩ Quat.IDENTITY).concat
        (Xform3.mk q ⟨1, 1, 1⟩ Quat.IDENTITY)
      = Xform3.mk (p.add q) ⟨1, 1, 1⟩ Quat.IDENTITY := by
  unfold Xform3.concat
  rw [quat_id_mulQ]
  have hone : (⟨1, 1, 1⟩ : V3).mulV q = q := by
    cases q
    unfold V3.mulV
    norm_num
  simp only [hone, quat_id_mulV3]
  have hscale : (⟨1, 1, 1⟩ : V3).mulV ⟨1, 1, 1⟩ = ⟨1, 1, 1⟩ := by
    unfold V3.mulV
    norm_num
  rw [hscale]

/-- C5: after `update()` the world position of C is exactly `(1,1,1)`
(the arithmetic involves only values at which `f32` is exact); and for
*any* replacement `L` of A's local transform, a second `update()`
recomputes C's stored world transform as the fresh composition
`(L ∘ B.local) ∘ C.local` while B's and C's local transforms are
untouched. -/
theorem claim5_scene_chain :
    (((mkChain txA).update 10).map (fun s => (s.nodes.getD 2 default).world.pos)
      = some ⟨1, 1, 1⟩)
    ∧ ∀ L : Xform3,
        ((mkChain L).update 10).map (fun s =>
          ((s.nodes.getD 1 default).localT, (s.nodes.getD 2 default).localT,
            (s.nodes.getD 2 default).world))
        = some (txB, txC, (L.concat txB).concat txC) := by
  constructor
  · rw [update_mkChain]
    simp only [Option.map_some', Option.some.injEq]
    show (((Xform3.IDENTITY.concat txA).concat txB).concat txC).pos = ⟨1, 1, 1⟩
    rw [id_concat]
    unfold txA txB txC
    rw [concat_translations, concat_translations]
    show ((⟨1, 0, 0⟩ : V3).add ⟨0, 1, 0⟩).add ⟨0, 0, 1⟩ = ⟨1, 1, 1⟩
    unfold V3.add
    norm_num
  · intro L
    rw [update_mkChain]
    simp only [Option.map_some']
    rw [id_concat]
    rfl

/-! ### `RawMap::write` (src/gfx/gl/mod.rs)

`RawMap` is the scoped write handle returned by `RawBuf::map`; it holds the
mapped byte range.  `write(data)` issues `glBufferSubData(target, range.start,
range.len(), data.as_ptr())`: the byte count passed to the device is
`self.range.len()`, and `data.len()` is never consulted.  We model the device
buffer as a byte list: the upload overwrites `range.len()` bytes at offset
`range.start`, taken from the front of `data`.  The copy is meaningful only
when `data` supplies at least `range.len()` bytes (a shorter `data` makes the
device read past the end of the slice); that failure mode is `none`.  No path
compares `data.length` with the range length. -/

def rawWrite (range : MetaAlloc) (buf data : List Nat) : Option (List Nat) :=
  if range.stop ≤ buf.length ∧ range.stop - range.start ≤ data.length then
    some (buf.take range.start ++ data.take (range.stop - range.start)
      ++ buf.drop range.stop)
  else none

/-- C8 counterexample: writing 8 bytes of data through a map whose region is
4 bytes long succeeds silently, uploading exactly the region's 4 bytes and
dropping the other 4 — the length mismatch is never surfaced. -/
theorem claim8_counterexample :
    rawWrite ⟨0, 4⟩ [0, 0, 0, 0, 0, 0, 0, 0] [1, 1, 1, 1, 1, 1, 1, 1]
        = some [1, 1, 1, 1, 0, 0, 0, 0]
      ∧ ([1, 1, 1, 1, 1, 1, 1, 1] : List Nat).length ≠ 4 - 0 := by
  decide

/-- C8 (amended): a write through a map scope uploads exactly
`range.len()` bytes at the region's byte offset — but the caller-supplied
data length is never compared against the region length: whenever `data`
holds at least `range.len()` bytes the write succeeds, the first
`range.len()` bytes of `data` land at the region's offset, and everything
outside the region is untouched, with any surplus bytes of `data` silently
ignored rather than reported. -/
theorem claim8_amended (range : MetaAlloc) (buf data : List Nat)
    (hs : range.start ≤ range.stop) (hb : range.stop ≤ buf.length)
    (hd : range.stop - range.start ≤ data.length) :
    ∃ out, rawWrite range buf data = some out
      ∧ out.length = buf.length
      ∧ out.take range.start = buf.take range.start
      ∧ (out.drop range.start).take (range.stop - range.start)
          = data.take (range.stop - range.start)
      ∧ out.drop range.stop = buf.drop range.stop := by
  have hsb : range.start ≤ buf.length := le_trans hs hb
  have hlt : (buf.take range.start).length = range.start := by
    simp [List.length_take]
    omega
  have hld : (data.take (range.stop - range.start)).length
      = range.stop - range.start := by
    simp [List.length_take]
    omega
  refine ⟨buf.take range.start ++ data.take (range.stop - range.start)
    ++ buf.drop range.stop, ?_, ?_, ?_, ?_, ?_⟩
  · unfold rawWrite
    rw [if_pos ⟨hb, hd⟩]
  · simp [List.length_take, List.length_drop]
    omega
  · rw [List.append_assoc, List.take_left' hlt]
  · rw [List.append_assoc, List.drop_left' hlt, List.take_left' hld]
  · refine List.drop_left' ?_
    rw [List.length_append, hlt, hld]
    omega

/-- Witness for the amended C8 at a concrete mismatched write: region `[1,3)`
of a 4-byte buffer, data of 3 bytes (one more than the region holds). -/
theorem claim8_amended_witness :
    ∃ out, rawWrite ⟨1, 3⟩ [5, 6, 7, 8] [9, 9, 9] = some out
      ∧ out.length = ([5, 6, 7, 8] : List Nat).length
      ∧ out.take 1 = ([5, 6, 7, 8] : List Nat).take 1
      ∧ (out.drop 1).take (3 - 1) = ([9, 9, 9] : List Nat).take (3 - 1)
      ∧ out.drop 3 = ([5, 6, 7, 8] : List Nat).drop 3 :=
  claim8_amended ⟨1, 3⟩ [5, 6, 7, 8] [9, 9, 9]
    (by decide) (by decide) (by decide)

/-! ### Batching pass (src/gfx/gl/mod.rs `Pass`, src/gfx/mod.rs `Drawable`)

`Pass::draw` routes every `Drawable::Mesh` in the frame's drawable stream to
a `MeshBatch` keyed (among the batches with instances) by mesh handle via
`find_mesh_batch`, which binary-searches `mesh_batches` with a comparator
that reports `Greater` for instance-less batches and inserts a fresh batch
at the reported position on a miss.  `Drop for Pass` then walks the batches
in order, stopping at the first instance-less one, and issues one instance
upload plus one `DrawElementsInstancedBaseVertex` call per batch, clearing
its instances.  `Mat4::from(&Xform3)` (src/math/mat.rs `from_xform3_impl!`)
is the row-major model matrix built from the normalized rotation, scale and
translation. -/

structure Mat4 where
  r0 : V4
  r1 : V4
  r2 : V4
  r3 : V4
deriving DecidableEq, Repr

def mat4FromXform3 (xform : Xform3) : Mat4 :=
  let p := xform.pos
  let s := xform.scale
  let n := xform.rot.v.normalized
  let xx := n.x * n.x
  let xy := n.x * n.y
  let xz := n.x * n.z
  let xw := n.x * n.w
  let yy := n.y * n.y
  let yz := n.y * n.z
  let yw := n.y * n.w
  let zz := n.z * n.z
  let zw := n.z * n.w
  { r0 := ⟨s.x * (1 - 2 * (yy + zz)), s.x * (2 * (xy + zw)),
           s.x * (2 * (xz - yw)), p.x⟩
    r1 := ⟨s.y * (2 * (xy - zw)), s.y * (1 - 2 * (xx + zz)),
           s.y * (2 * (yz + xw)), p.y⟩
    r2 := ⟨s.z * (2 * (xz + yw)), s.z * (2 * (yz - xw)),
           s.z * (1 - 2 * (xx + yy)), p.z⟩
    r3 := ⟨0, 0, 0, 1⟩ }

structure MeshInst where
  world : Mat4
  blend : V4
  tex : V4
deriving DecidableEq, Repr

structure MeshBatch where
  hnd : Nat
  store : Nat
  insts : List MeshInst
deriving DecidableEq, Repr

instance : Inhabited MeshBatch := ⟨⟨0, 0, []⟩⟩

/-- gfx/mod.rs `pub enum Drawable`. -/
inductive Drawable where
  | none : Drawable
  | mesh (hnd : Nat) (tex : Nat) (blend : V4) : Drawable
deriving DecidableEq, Repr

inductive BsResult where
  | found (idx : Nat) : BsResult
  | notFound (idx : Nat) : BsResult
deriving DecidableEq, Repr

/-- `slice::binary_search_by` (Rust std): `left`/`right` bisection loop;
`size` is `right - left`, recomputed at the bottom of each iteration.  The
fuel argument is structural bookkeeping; `l.length + 1` always suffices. -/
def bsGo (f : MeshBatch → Ordering) (l : List MeshBatch) :
    Nat → Nat → Nat → Nat → BsResult
  | 0, _, left, _ => .notFound left
  | fuel + 1, size, left, right =>
      if left < right then
        let mid := left + size / 2
        match f (l.getD mid default) with
        | .lt => bsGo f l fuel (right - (mid + 1)) (mid + 1) right
        | .gt => bsGo f l fuel (mid - left) left mid
        | .eq => .found mid
      else .notFound left

def binarySearchBy (f : MeshBatch → Ordering) (l : List MeshBatch) : BsResult :=
  bsGo f l (l.length + 1) l.length 0 l.length

/-- The comparator closure in `find_mesh_batch`: a batch that still has
instances compares by mesh handle; an instance-less batch is `Greater`. -/
def meshCmp (hnd : Nat) (batch : MeshBatch) : Ordering :=
  if !batch.insts.isEmpty then compare batch.hnd hnd else Ordering.gt

/-- `Pass::find_mesh_batch`: on `Ok(idx)` reuse the batch at `idx`; on
`Err(idx)` insert a fresh batch (store 0, no instances) at `idx`.  Returns
the index together with the (possibly extended) batch vector. -/
def findMeshBatch (hnd : Nat) (batches : List MeshBatch) :
    Nat × List MeshBatch :=
  match binarySearchBy (meshCmp hnd) batches with
  | .found idx => (idx, batches)
  | .notFound idx =>
      (idx, batches.take idx ++ ⟨hnd, 0, []⟩ :: batches.drop idx)

/-- `.insts.push(inst)` on the batch at `idx`. -/
def pushInst (batches : List MeshBatch) (idx : Nat) (inst : MeshInst) :
    List MeshBatch :=
  batches.set idx
    (let b := batches.getD idx default
     { b with insts := b.insts ++ [inst] })

/-- One iteration of the `for (world, draw) in iter` loop in `Pass::draw`. -/
def drawStep (batches : List MeshBatch) (p : Xform3 × Drawable) :
    List MeshBatch :=
  match p.2 with
  | .none => batches
  | .mesh hnd tex blend =>
      let r := findMeshBatch hnd batches
      pushInst r.2 r.1 ⟨mat4FromXform3 p.1, blend, ⟨(tex : ℚ), 0, 0, 0⟩⟩

def passDraw (stream : List (Xform3 × Drawable))
    (batches : List MeshBatch) : List MeshBatch :=
  stream.foldl drawStep batches

/-- One instanced draw as issued by `Drop for Pass`: the instance-store
upload size in texels (`insts.len() * NUM_INST_COMPONENTS`, with
`NUM_INST_COMPONENTS = size_of::<MeshInst>() / size_of::<V4>() = 6`) and
the `DrawElementsInstancedBaseVertex` arguments derived from the mesh's
index-buffer range (`u32` indices, so element counts divide bytes by 4). -/
structure DrawCall where
  hnd : Nat
  store : Nat
  uploadTexels : Nat
  indexCount : Nat
  indexStart : Nat
  baseVertex : Nat
  instCount : Nat
deriving DecidableEq, Repr

def mkDrawCall (b : MeshBatch) (range : MetaAlloc) : DrawCall :=
  { hnd := b.hnd
    store := b.store
    uploadTexels := b.insts.length * 6
    indexCount := (range.stop - range.start) / 4
    indexStart := range.start
    baseVertex := range.start / 4
    instCount := b.insts.length }

/-- `Drop for Pass`: walk the batches, `break` at the first instance-less
one, emit one draw per remaining batch and clear its instances.  `meshes`
is `gl.meshes` (VBO handle, IBO handle per mesh) and `items` the
index-buffer allocation table `gl.ibo.inner.allocs.items`; an
out-of-bounds index there is a panic, modelled as `none`. -/
def dropGo (meshes : List (Nat × Nat)) (items : List MetaAlloc) :
    List MeshBatch → Option (List DrawCall × List MeshBatch)
  | [] => some ([], [])
  | b :: rest =>
      if b.insts.isEmpty then some ([], b :: rest)
      else
        match meshes[b.hnd]? with
        | none => none
        | some m =>
            match items[m.2]? with
            | none => none
            | some range =>
                match dropGo meshes items rest with
                | none => none
                | some (calls, cleared) =>
                    some (mkDrawCall b range :: calls,
                      { b with insts := [] } :: cleared)

/-- The mesh handles referenced by a drawable stream, in order. -/
def handlesOf (stream : List (Xform3 × Drawable)) : List Nat :=
  stream.filterMap (fun p =>
    match p.2 with
    | .mesh hnd _ _ => some hnd
    | .none => none)

/-- Rank of an `Ordering` (`lt < eq < gt`), used to state comparator
monotonicity. -/
def ordVal : Ordering → Nat
  | .lt => 0
  | .eq => 1
  | .gt => 2

theorem ordVal_eq_zero {o : Ordering} (h : ordVal o = 0) : o = .lt := by
  cases o <;> simp_all [ordVal]

theorem ordVal_eq_two {o : Ordering} (h : 2 ≤ ordVal o) : o = .gt := by
  cases o <;> simp_all [ordVal]

/-- `slice::binary_search_by` on a comparator that is monotone along the
slice: the loop either finds an index where the comparator says `Equal`,
or ends at the exact boundary between the `Less` prefix and the `Greater`
suffix. -/
theorem bsGo_spec (f : MeshBatch → Ordering) (l : List MeshBatch)
    (hmono : ∀ i j, i ≤ j → j < l.length →
      ordVal (f (l.getD i default)) ≤ ordVal (f (l.getD j default))) :
    ∀ fuel left right, left ≤ right → right ≤ l.length →
      right - left < fuel →
      (∀ i, i < left → f (l.getD i default) = .lt) →
      (∀ i, right ≤ i → i < l.length → f (l.getD i default) = .gt) →
      (∃ mid, bsGo f l fuel (right - left) left right = .found mid
          ∧ mid < l.length ∧ f (l.getD mid default) = .eq)
      ∨ (∃ pos, bsGo f l fuel (right - left) left right = .notFound pos
          ∧ pos ≤ l.length
          ∧ (∀ i, i < pos → f (l.getD i default) = .lt)
          ∧ (∀ i, pos ≤ i → i < l.length → f (l.getD i default) = .gt)) := by
  intro fuel
  induction fuel with
  | zero => intro left right _ _ h3 _ _; omega
  | succ fuel ih =>
      intro left right h1 h2 h3 hL hR
      by_cases hlr : left < right
      · have hmidlt : left + (right - left) / 2 < right := by omega
        have hmidlen : left + (right - left) / 2 < l.length := by omega
        rcases hcmp : f (l.getD (left + (right - left) / 2) default) with _ | _ | _
        · -- Less: move left past mid
          have hL' : ∀ i, i < left + (right - left) / 2 + 1 →
              f (l.getD i default) = .lt := by
            intro i hi
            by_cases hil : i < left
            · exact hL i hil
            · refine ordVal_eq_zero ?_
              have := hmono i (left + (right - left) / 2) (by omega) hmidlen
              rw [hcmp] at this
              have hv : ordVal Ordering.lt = 0 := rfl
              omega
          have := ih (left + (right - left) / 2 + 1) right (by omega) h2
            (by omega) hL' hR
          have harg : right - (left + (right - left) / 2 + 1)
              = right - (left + (right - left) / 2 + 1) := rfl
          simp only [bsGo, if_pos hlr, hcmp]
          exact this
        · -- Equal: found
          left
          refine ⟨left + (right - left) / 2, ?_, hmidlen, hcmp⟩
          simp only [bsGo, if_pos hlr, hcmp]
        · -- Greater: move right down to mid
          have hR' : ∀ i, left + (right - left) / 2 ≤ i → i < l.length →
              f (l.getD i default) = .gt := by
            intro i hi hil
            by_cases hir : right ≤ i
            · exact hR i hir hil
            · refine ordVal_eq_two ?_
              have := hmono (left + (right - left) / 2) i hi hil
              rw [hcmp] at this
              have hv : ordVal Ordering.gt = 2 := rfl
              omega
          have := ih left (left + (right - left) / 2) (by omega) (by omega)
            (by omega) hL hR'
          simp only [bsGo, if_pos hlr, hcmp]
          exact this
      · right
        refine ⟨left, ?_, by omega, hL, ?_⟩
        · simp only [bsGo, if_neg hlr]
        · intro i hi hil
          exact hR i (by omega) hil

theorem getD_mem {l : List MeshBatch} {i : Nat} (h : i < l.length) :
    l.getD i default ∈ l := by
  rw [List.getD_eq_getElem l default h]
  exact List.getElem_mem h

theorem pairwise_getD_hnd {l : List MeshBatch}
    (hs : l.Pairwise (fun a b => a.hnd < b.hnd)) {i j : Nat}
    (hij : i < j) (hj : j < l.length) :
    (l.getD i default).hnd < (l.getD j default).hnd := by
  rw [List.getD_eq_getElem l default (lt_trans hij hj),
      List.getD_eq_getElem l default hj]
  have := List.pairwise_iff_get.mp hs ⟨i, lt_trans hij hj⟩ ⟨j, hj⟩ hij
  simpa [List.get_eq_getElem] using this

theorem meshCmp_live (h : Nat) (b : MeshBatch) (hb : b.insts ≠ []) :
    meshCmp h b = compare b.hnd h := by
  unfold meshCmp
  rw [if_pos]
  simpa using hb

theorem meshCmp_empty (h : Nat) (b : MeshBatch) (hb : b.insts = []) :
    meshCmp h b = Ordering.gt := by
  unfold meshCmp
  rw [if_neg]
  simp [hb]

theorem ordVal_le_two (o : Ordering) : ordVal o ≤ 2 := by
  cases o <;> decide

theorem ordVal_compare_mono {a b h : Nat} (hab : a ≤ b) :
    ordVal (compare a h) ≤ ordVal (compare b h) := by
  rcases Nat.lt_trichotomy a h with h1 | h1 | h1
  · rw [Nat.compare_eq_lt.mpr h1]
    exact Nat.zero_le _
  · rw [Nat.compare_eq_eq.mpr h1]
    rcases Nat.lt_trichotomy b h with h2 | h2 | h2
    · omega
    · rw [Nat.compare_eq_eq.mpr h2]
    · rw [Nat.compare_eq_gt.mpr h2]
      decide
  · rw [Nat.compare_eq_gt.mpr h1, Nat.compare_eq_gt.mpr (by omega)]

/-- On a batch vector made of a sorted, instance-bearing prefix followed by
instance-less batches, `find_mesh_batch`'s comparator is monotone along the
vector. -/
theorem meshCmp_mono_of_wf (h : Nat) (live emp : List MeshBatch)
    (hlive : ∀ b ∈ live, b.insts ≠ [])
    (hemp : ∀ b ∈ emp, b.insts = [])
    (hsort : live.Pairwise (fun a b => a.hnd < b.hnd)) :
    ∀ i j, i ≤ j → j < (live ++ emp).length →
      ordVal (meshCmp h ((live ++ emp).getD i default))
        ≤ ordVal (meshCmp h ((live ++ emp).getD j default)) := by
  intro i j hij hj
  by_cases hjl : j < live.length
  · have hil : i ≤ j := hij
    have hilive : i < live.length := lt_of_le_of_lt hij hjl
    rw [List.getD_append live emp default i hilive,
        List.getD_append live emp default j hjl]
    rcases eq_or_lt_of_le hij with rfl | hlt
    · exact le_refl _
    · rw [meshCmp_live h _ (hlive _ (getD_mem hilive)),
          meshCmp_live h _ (hlive _ (getD_mem hjl))]
      exact ordVal_compare_mono (le_of_lt (pairwise_getD_hnd hsort hlt hjl))
  · have hjge : live.length ≤ j := le_of_not_lt hjl
    rw [List.getD_append_right live emp default j hjge]
    have hjemp : j - live.length < emp.length := by
      rw [List.length_append] at hj
      omega
    rw [meshCmp_empty h _ (hemp _ (getD_mem hjemp))]
    exact ordVal_le_two _

/-- `Pass::find_mesh_batch` on a well-formed batch vector: either the
handle already owns an instance-bearing batch and that batch's index is
returned with the vector untouched, or the handle is absent from the
instance-bearing prefix and a fresh batch is inserted at its sorted
position inside that prefix. -/
theorem findMeshBatch_spec (h : Nat) (live emp : List MeshBatch)
    (hlive : ∀ b ∈ live, b.insts ≠ [])
    (hemp : ∀ b ∈ emp, b.insts = [])
    (hsort : live.Pairwise (fun a b => a.hnd < b.hnd)) :
    (∃ t, t < live.length ∧ (live.getD t default).hnd = h
        ∧ findMeshBatch h (live ++ emp) = (t, live ++ emp))
    ∨ ((∀ t, t < live.length → (live.getD t default).hnd ≠ h)
       ∧ ∃ pos, pos ≤ live.length
         ∧ findMeshBatch h (live ++ emp)
             = (pos, (live.take pos ++ ⟨h, 0, []⟩ :: live.drop pos) ++ emp)
         ∧ (∀ i, i < pos → (live.getD i default).hnd < h)
         ∧ (∀ i, pos ≤ i → i < live.length →
              h < (live.getD i default).hnd)) := by
  have hspec := bsGo_spec (meshCmp h) (live ++ emp)
    (meshCmp_mono_of_wf h live emp hlive hemp hsort)
    ((live ++ emp).length + 1) 0 (live ++ emp).length (Nat.zero_le _)
    le_rfl (by omega)
    (fun i hi => absurd hi (Nat.not_lt_zero i))
    (fun i h1 h2 => absurd h2 (not_lt.mpr h1))
  rw [Nat.sub_zero] at hspec
  rcases hspec with ⟨mid, heq, hmidlen, hmid⟩ | ⟨pos, heq, hposlen, hplt, hpgt⟩
  · left
    have hmidlive : mid < live.length := by
      by_contra hge
      push_neg at hge
      have hinst : ((live ++ emp).getD mid default).insts = [] := by
        rw [List.getD_append_right live emp default mid hge]
        refine hemp _ (getD_mem ?_)
        rw [List.length_append] at hmidlen
        omega
      rw [meshCmp_empty h _ hinst] at hmid
      exact Ordering.noConfusion hmid
    have hgd : (live ++ emp).getD mid default = live.getD mid default :=
      List.getD_append live emp default mid hmidlive
    have hhnd : (live.getD mid default).hnd = h := by
      have hinst : (live.getD mid default).insts ≠ [] :=
        hlive _ (getD_mem hmidlive)
      rw [hgd, meshCmp_live h _ hinst] at hmid
      exact Nat.compare_eq_eq.mp hmid
    refine ⟨mid, hmidlive, hhnd, ?_⟩
    simp only [findMeshBatch, binarySearchBy, heq]
  · right
    have hposlive : pos ≤ live.length := by
      by_contra hgt
      push_neg at hgt
      have hfact := hplt live.length hgt
      have hlelen : live.length < (live ++ emp).length := lt_of_lt_of_le hgt hposlen
      have hinst : ((live ++ emp).getD live.length default).insts = [] := by
        rw [List.getD_append_right live emp default live.length le_rfl]
        refine hemp _ (getD_mem ?_)
        rw [List.length_append] at hlelen
        omega
      rw [meshCmp_empty h _ hinst] at hfact
      exact Ordering.noConfusion hfact
    refine ⟨?_, pos, hposlive, ?_, ?_, ?_⟩
    · intro t ht hth
      have hinst : (live.getD t default).insts ≠ [] := hlive _ (getD_mem ht)
      have hgd : (live ++ emp).getD t default = live.getD t default :=
        List.getD_append live emp default t ht
      rcases Nat.lt_or_ge t pos with h1 | h1
      · have hfact := hplt t h1
        rw [hgd, meshCmp_live h _ hinst] at hfact
        have := Nat.compare_eq_lt.mp hfact
        omega
      · have hfact := hpgt t h1 (by rw [List.length_append]; omega)
        rw [hgd, meshCmp_live h _ hinst] at hfact
        have := Nat.compare_eq_gt.mp hfact
        omega
    · simp only [findMeshBatch, binarySearchBy, heq]
      have htake : (live ++ emp).take pos = live.take pos := by
        rw [List.take_append_eq_append_take,
            show pos - live.length = 0 by omega]
        simp
      have hdrop : (live ++ emp).drop pos = live.drop pos ++ emp := by
        rw [List.drop_append_eq_append_drop,
            show pos - live.length = 0 by omega]
        simp
      rw [htake, hdrop]
      rw [← List.cons_append, ← List.append_assoc]
    · intro i hi
      have hil : i < live.length := lt_of_lt_of_le hi hposlive
      have hfact := hplt i hi
      rw [List.getD_append live emp default i hil,
          meshCmp_live h _ (hlive _ (getD_mem hil))] at hfact
      exact Nat.compare_eq_lt.mp hfact
    · intro i h1 h2
      have hfact := hpgt i h1 (by rw [List.length_append]; omega)
      rw [List.getD_append live emp default i h2,
          meshCmp_live h _ (hlive _ (getD_mem h2))] at hfact
      exact Nat.compare_eq_gt.mp hfact

/-- Invariant for a frame that draws meshes `M` and `N` only: the batch
vector is an instance-bearing prefix holding the handles drawn so far
(sorted by handle, with `a` instances under `M` and `b` under `N`)
followed by leftover instance-less batches. -/
def TwoState (M N a b : Nat) (l : List MeshBatch) : Prop :=
  ∃ emp : List MeshBatch, (∀ e ∈ emp, e.insts = []) ∧
    ((a = 0 ∧ b = 0 ∧ l = emp)
     ∨ (b = 0 ∧ ∃ iM : List MeshInst, iM.length = a ∧ 0 < a ∧
          l = ⟨M, 0, iM⟩ :: emp)
     ∨ (a = 0 ∧ ∃ iN : List MeshInst, iN.length = b ∧ 0 < b ∧
          l = ⟨N, 0, iN⟩ :: emp)
     ∨ (∃ iM iN : List MeshInst, iM.length = a ∧ iN.length = b ∧
          0 < a ∧ 0 < b ∧
          ((M < N ∧ l = ⟨M, 0, iM⟩ :: ⟨N, 0, iN⟩ :: emp)
           ∨ (N < M ∧ l = ⟨N, 0, iN⟩ :: ⟨M, 0, iM⟩ :: emp))))

theorem twoState_swap {M N a b : Nat} {l : List MeshBatch}
    (hs : TwoState M N a b l) : TwoState N M b a l := by
  obtain ⟨emp, hemp, hcase⟩ := hs
  refine ⟨emp, hemp, ?_⟩
  rcases hcase with ⟨ha, hb, hl⟩ | h2 | h3 | ⟨iM, iN, h1, h2, h3, h4, hord⟩
  · exact Or.inl ⟨hb, ha, hl⟩
  · exact Or.inr (Or.inr (Or.inl h2))
  · exact Or.inr (Or.inl h3)
  · exact Or.inr (Or.inr (Or.inr ⟨iN, iM, h2, h1, h4, h3, hord.symm⟩))

/-- Drawing a `Drawable::Mesh` with handle `M` adds one instance to `M`'s
batch (creating it at its sorted position on first use) and disturbs
nothing else. -/
theorem twoState_drawM {M N a b : Nat} (hMN : M ≠ N) {l : List MeshBatch}
    (hs : TwoState M N a b l) (xf : Xform3) (tex : Nat) (blend : V4) :
    TwoState M N (a + 1) b (drawStep l (xf, Drawable.mesh M tex blend)) := by
  obtain ⟨emp, hemp, hcase⟩ := hs
  have hstep : drawStep l (xf, Drawable.mesh M tex blend)
      = pushInst (findMeshBatch M l).2 (findMeshBatch M l).1
          ⟨mat4FromXform3 xf, blend, ⟨(tex : ℚ), 0, 0, 0⟩⟩ := rfl
  set inst : MeshInst := ⟨mat4FromXform3 xf, blend, ⟨(tex : ℚ), 0, 0, 0⟩⟩
    with hinstdef
  rcases hcase with ⟨ha, hb, hl⟩ | ⟨hb, iM, hlen, hapos, hl⟩
    | ⟨ha, iN, hlen, hbpos, hl⟩ | ⟨iM, iN, hlM, hlN, hpa, hpb, hord⟩
  · -- no batch has instances yet
    subst hl
    have hspec := findMeshBatch_spec M [] l (by simp) hemp List.Pairwise.nil
    rw [List.nil_append] at hspec
    rcases hspec with ⟨t, ht, _⟩ | ⟨_, pos, hposle, heq, _, _⟩
    · simp at ht
    · have hp0 : pos = 0 := by
        simp at hposle
        omega
      subst hp0
      rw [hstep, heq]
      exact ⟨l, hemp, Or.inr (Or.inl ⟨hb, [inst], by simp [ha], by omega,
        rfl⟩)⟩
  · -- only M's batch is live
    subst hl
    have hiM : iM ≠ [] := by
      intro hnil
      rw [hnil] at hlen
      simp at hlen
      omega
    have hspec := findMeshBatch_spec M [⟨M, 0, iM⟩] emp
      (by
        intro bb hbb
        simp at hbb
        subst hbb
        simpa using hiM)
      hemp (List.pairwise_singleton _ _)
    simp only [List.cons_append, List.nil_append] at hspec
    rcases hspec with ⟨t, ht, hhnd, heq⟩ | ⟨habs, _⟩
    · have ht0 : t = 0 := by
        simp at ht
        omega
      subst ht0
      rw [hstep, heq]
      exact ⟨emp, hemp, Or.inr (Or.inl ⟨hb, iM ++ [inst], by simp [hlen],
        by omega, rfl⟩)⟩
    · exact absurd rfl (habs 0 (by simp))
  · -- only N's batch is live, M's is created
    subst hl
    have hiN : iN ≠ [] := by
      intro hnil
      rw [hnil] at hlen
      simp at hlen
      omega
    have hspec := findMeshBatch_spec M [⟨N, 0, iN⟩] emp
      (by
        intro bb hbb
        simp at hbb
        subst hbb
        simpa using hiN)
      hemp (List.pairwise_singleton _ _)
    simp only [List.cons_append, List.nil_append] at hspec
    rcases hspec with ⟨t, ht, hhnd, heq⟩ | ⟨habs, pos, hposle, heq, hbelow, habove⟩
    · have ht0 : t = 0 := by
        simp at ht
        omega
      subst ht0
      have hNM : N = M := hhnd
      exact absurd hNM (Ne.symm hMN)
    · have hp : pos = 0 ∨ pos = 1 := by
        simp at hposle
        omega
      rcases hp with hp | hp
      · subst hp
        have hMltN : M < N := habove 0 (by omega) (by simp)
        rw [hstep, heq]
        exact ⟨emp, hemp, Or.inr (Or.inr (Or.inr ⟨[inst], iN, by simp [ha],
          hlen, by omega, hbpos, Or.inl ⟨hMltN, rfl⟩⟩))⟩
      · subst hp
        have hNltM : N < M := hbelow 0 (by omega)
        rw [hstep, heq]
        exact ⟨emp, hemp, Or.inr (Or.inr (Or.inr ⟨[inst], iN, by simp [ha],
          hlen, by omega, hbpos, Or.inr ⟨hNltM, rfl⟩⟩))⟩
  · -- both batches live
    have hiM : iM ≠ [] := by
      intro hnil
      rw [hnil] at hlM
      simp at hlM
      omega
    have hiN : iN ≠ [] := by
      intro hnil
      rw [hnil] at hlN
      simp at hlN
      omega
    rcases hord with ⟨hMltN, hl⟩ | ⟨hNltM, hl⟩
    · subst hl
      have hspec := findMeshBatch_spec M [⟨M, 0, iM⟩, ⟨N, 0, iN⟩] emp
        (by
          intro bb hbb
          simp at hbb
          rcases hbb with hbb | hbb
          · subst hbb
            simpa using hiM
          · subst hbb
            simpa using hiN)
        hemp (by simp [List.pairwise_cons]; exact hMltN)
      simp only [List.cons_append, List.nil_append] at hspec
      rcases hspec with ⟨t, ht, hhnd, heq⟩ | ⟨habs, _⟩
      · have hp : t = 0 ∨ t = 1 := by
          simp at ht
          omega
        rcases hp with hp | hp
        · subst hp
          rw [hstep, heq]
          exact ⟨emp, hemp, Or.inr (Or.inr (Or.inr ⟨iM ++ [inst], iN,
            by simp [hlM], hlN, by omega, hpb, Or.inl ⟨hMltN, rfl⟩⟩))⟩
        · subst hp
          have hNM : N = M := hhnd
          exact absurd hNM (Ne.symm hMN)
      · exact absurd rfl (habs 0 (by simp))
    · subst hl
      have hspec := findMeshBatch_spec M [⟨N, 0, iN⟩, ⟨M, 0, iM⟩] emp
        (by
          intro bb hbb
          simp at hbb
          rcases hbb with hbb | hbb
          · subst hbb
            simpa using hiN
          · subst hbb
            simpa using hiM)
        hemp (by simp [List.pairwise_cons]; exact hNltM)
      simp only [List.cons_append, List.nil_append] at hspec
      rcases hspec with ⟨t, ht, hhnd, heq⟩ | ⟨habs, _⟩
      · have hp : t = 0 ∨ t = 1 := by
          simp at ht
          omega
        rcases hp with hp | hp
        · subst hp
          have hNM : N = M := hhnd
          exact absurd hNM (Ne.symm hMN)
        · subst hp
          rw [hstep, heq]
          exact ⟨emp, hemp, Or.inr (Or.inr (Or.inr ⟨iM ++ [inst], iN,
            by simp [hlM], hlN, by omega, hpb, Or.inr ⟨hNltM, rfl⟩⟩))⟩
      · exact absurd rfl (habs 1 (by simp))

theorem twoState_drawN {M N a b : Nat} (hMN : M ≠ N) {l : List MeshBatch}
    (hs : TwoState M N a b l) (xf : Xform3) (tex : Nat) (blend : V4) :
    TwoState M N a (b + 1) (drawStep l (xf, Drawable.mesh N tex blend)) :=
  twoState_swap (twoState_drawM (Ne.symm hMN) (twoState_swap hs) xf tex blend)

/-- Folding `Pass::draw` over a stream that only references handles `M`
and `N` adds each drawable to its handle's batch. -/
theorem passDraw_twoState {M N : Nat} (hMN : M ≠ N) :
    ∀ (stream : List (Xform3 × Drawable)) (l : List MeshBatch) (a b : Nat),
      TwoState M N a b l →
      (∀ p ∈ stream, ∀ h tex blend, p.2 = Drawable.mesh h tex blend →
        h = M ∨ h = N) →
      TwoState M N (a + (handlesOf stream).count M)
        (b + (handlesOf stream).count N) (passDraw stream l) := by
  intro stream
  induction stream with
  | nil =>
      intro l a b hs _
      simpa [passDraw, handlesOf] using hs
  | cons p rest ih =>
      intro l a b hs honly
      obtain ⟨xf, d⟩ := p
      have hrest : ∀ q ∈ rest, ∀ h tex blend,
          q.2 = Drawable.mesh h tex blend → h = M ∨ h = N :=
        fun q hq => honly q (List.mem_cons_of_mem _ hq)
      cases d with
      | none =>
          have hpd : passDraw ((xf, Drawable.none) :: rest) l
              = passDraw rest l := rfl
          have hho : handlesOf ((xf, Drawable.none) :: rest)
              = handlesOf rest := rfl
          rw [hpd, hho]
          exact ih l a b hs hrest
      | mesh h tex blend =>
          have hh : h = M ∨ h = N :=
            honly (xf, Drawable.mesh h tex blend)
              (List.mem_cons_self _ _) h tex blend rfl
          have hpd : passDraw ((xf, Drawable.mesh h tex blend) :: rest) l
              = passDraw rest (drawStep l (xf, Drawable.mesh h tex blend)) :=
            rfl
          have hho : handlesOf ((xf, Drawable.mesh h tex blend) :: rest)
              = h :: handlesOf rest := rfl
          rcases hh with rfl | rfl
          · have hstep := twoState_drawM hMN hs xf tex blend
            have hres := ih _ (a + 1) b hstep hrest
            rw [hpd, hho, List.count_cons_self,
                List.count_cons_of_ne (Ne.symm hMN)]
            have harith : a + ((handlesOf rest).count h + 1)
                = a + 1 + (handlesOf rest).count h := by omega
            rw [harith]
            exact hres
          · have hstep := twoState_drawN hMN hs xf tex blend
            have hres := ih _ a (b + 1) hstep hrest
            rw [hpd, hho, List.count_cons_self, List.count_cons_of_ne hMN]
            have harith : b + ((handlesOf rest).count h + 1)
                = b + 1 + (handlesOf rest).count h := by omega
            rw [harith]
            exact hres

/-- `Drop for Pass` stops at the first instance-less batch, so a vector of
instance-less batches produces no draw calls. -/
theorem dropGo_allEmpty (meshes : List (Nat × Nat)) (items : List MetaAlloc)
    (emp : List MeshBatch) (hemp : ∀ e ∈ emp, e.insts = []) :
    ∃ rest, dropGo meshes items emp = some ([], rest) := by
  cases emp with
  | nil => exact ⟨[], rfl⟩
  | cons e tail =>
      refine ⟨e :: tail, ?_⟩
      have he : e.insts = [] := hemp e (List.mem_cons_self _ _)
      simp [dropGo, he]

/-- One `Drop for Pass` iteration on an instance-bearing batch whose mesh
and index-range lookups succeed. -/
theorem dropGo_cons_live (meshes : List (Nat × Nat))
    (items : List MetaAlloc) (b : MeshBatch) (rest : List MeshBatch)
    (m : Nat × Nat) (range : MetaAlloc) (hb : b.insts ≠ [])
    (hm : meshes[b.hnd]? = some m) (hr : items[m.2]? = some range)
    (calls : List DrawCall) (cleared : List MeshBatch)
    (hrest : dropGo meshes items rest = some (calls, cleared)) :
    dropGo meshes items (b :: rest)
      = some (mkDrawCall b range :: calls,
          { b with insts := [] } :: cleared) := by
  simp [dropGo, List.isEmpty_iff, hb, hm, hr, hrest]

/-- C2: for every frame whose drawable stream references mesh handle `M`
twice and mesh handle `N` once (`M ≠ N`, in any order, with any number of
`Drawable::None` entries), starting from batches left instance-less by the
previous frame, the pass issues exactly 2 instanced draw calls — one per
distinct mesh handle — and the draw for `M` has instance count 2 (and
`N`'s has instance count 1). -/
theorem claim2_batching (M N : Nat) (hMN : M ≠ N)
    (stream : List (Xform3 × Drawable))
    (hstream : (handlesOf stream).Perm [M, M, N])
    (batches : List MeshBatch) (hbe : ∀ bb ∈ batches, bb.insts = [])
    (meshes : List (Nat × Nat)) (items : List MetaAlloc)
    (mM mN : Nat × Nat) (rM rN : MetaAlloc)
    (hmM : meshes[M]? = some mM) (hmN : meshes[N]? = some mN)
    (hrM : items[mM.2]? = some rM) (hrN : items[mN.2]? = some rN) :
    ∃ calls rest,
      dropGo meshes items (passDraw stream batches) = some (calls, rest)
      ∧ calls.length = 2
      ∧ (∃ c ∈ calls, c.hnd = M ∧ c.instCount = 2)
      ∧ (∃ c ∈ calls, c.hnd = N ∧ c.instCount = 1) := by
  have honly : ∀ p ∈ stream, ∀ h tex blend,
      p.2 = Drawable.mesh h tex blend → h = M ∨ h = N := by
    intro p hp h tex blend hpd
    have hmem : h ∈ handlesOf stream := by
      unfold handlesOf
      refine List.mem_filterMap.mpr ⟨p, hp, ?_⟩
      rw [hpd]
    have hmem2 := hstream.mem_iff.mp hmem
    simp at hmem2
    tauto
  have hcM : (handlesOf stream).count M = 2 := by
    rw [hstream.count_eq]
    simp [List.count_cons, hMN]
  have hcN : (handlesOf stream).count N = 1 := by
    rw [hstream.count_eq]
    simp [List.count_cons, Ne.symm hMN]
  have hinit : TwoState M N 0 0 batches := ⟨batches, hbe, Or.inl ⟨rfl, rfl, rfl⟩⟩
  have hfinal := passDraw_twoState hMN stream batches 0 0 hinit honly
  rw [hcM, hcN] at hfinal
  obtain ⟨emp, hemp, hcase⟩ := hfinal
  rcases hcase with ⟨ha, _, _⟩ | ⟨hb, _⟩ | ⟨ha, _⟩
    | ⟨iM, iN, hlM, hlN, _, _, hord⟩
  · omega
  · omega
  · omega
  · have hiM : iM ≠ [] := by
      intro hnil
      rw [hnil] at hlM
      simp at hlM
    have hiN : iN ≠ [] := by
      intro hnil
      rw [hnil] at hlN
      simp at hlN
    obtain ⟨tail, htail⟩ := dropGo_allEmpty meshes items emp hemp
    rcases hord with ⟨hlt, hl⟩ | ⟨hlt, hl⟩
    · have hN1 := dropGo_cons_live meshes items ⟨N, 0, iN⟩ emp mN rN hiN
        hmN hrN [] tail htail
      have hM1 := dropGo_cons_live meshes items ⟨M, 0, iM⟩
        (⟨N, 0, iN⟩ :: emp) mM rM hiM hmM hrM _ _ hN1
      rw [hl, hM1]
      refine ⟨_, _, rfl, rfl, ?_, ?_⟩
      · exact ⟨mkDrawCall ⟨M, 0, iM⟩ rM, by simp, rfl, by simpa using hlM⟩
      · exact ⟨mkDrawCall ⟨N, 0, iN⟩ rN, by simp, rfl, by simpa using hlN⟩
    · have hM1 := dropGo_cons_live meshes items ⟨M, 0, iM⟩ emp mM rM hiM
        hmM hrM [] tail htail
      have hN1 := dropGo_cons_live meshes items ⟨N, 0, iN⟩
        (⟨M, 0, iM⟩ :: emp) mN rN hiN hmN hrN _ _ hM1
      rw [hl, hN1]
      refine ⟨_, _, rfl, rfl, ?_, ?_⟩
      · exact ⟨mkDrawCall ⟨M, 0, iM⟩ rM, by simp, rfl, by simpa using hlM⟩
      · exact ⟨mkDrawCall ⟨N, 0, iN⟩ rN, by simp, rfl, by simpa using hlN⟩

/-- Witness for C2 at a concrete frame: handles 5 (twice) and 3 (once)
interleaved, fresh batch vector, six meshes, two index-buffer ranges. -/
theorem claim2_batching_witness :
    ∃ calls rest,
      dropGo [(0, 0), (0, 0), (0, 0), (10, 1), (0, 0), (11, 0)]
          [⟨0, 8⟩, ⟨8, 24⟩]
          (passDraw
            [(Xform3.IDENTITY, Drawable.mesh 5 0 ⟨1, 1, 1, 1⟩),
             (Xform3.IDENTITY, Drawable.mesh 3 1 ⟨1, 1, 1, 1⟩),
             (Xform3.IDENTITY, Drawable.mesh 5 0 ⟨1, 1, 1, 1⟩)] [])
        = some (calls, rest)
      ∧ calls.length = 2
      ∧ (∃ c ∈ calls, c.hnd = 5 ∧ c.instCount = 2)
      ∧ (∃ c ∈ calls, c.hnd = 3 ∧ c.instCount = 1) :=
  claim2_batching 5 3 (by decide)
    [(Xform3.IDENTITY, Drawable.mesh 5 0 ⟨1, 1, 1, 1⟩),
     (Xform3.IDENTITY, Drawable.mesh 3 1 ⟨1, 1, 1, 1⟩),
     (Xform3.IDENTITY, Drawable.mesh 5 0 ⟨1, 1, 1, 1⟩)]
    (by decide) [] (by simp)
    [(0, 0), (0, 0), (0, 0), (10, 1), (0, 0), (11, 0)] [⟨0, 8⟩, ⟨8, 24⟩]
    (11, 0) (10, 1) ⟨0, 8⟩ ⟨8, 24⟩ rfl rfl rfl rfl

end QD
